import Mathlib

/-!
Verification of the monotone-chain convex hull implementation
(`convex_hull.py`): the `Point` data model, the `direction` turn test and
the `convex_hull` procedure, together with the geometric guarantees stated
in the design document (convexity, containment, subset, deduplication,
degenerate cases, idempotence and input-order invariance).

All arithmetic is modelled over `Int`, the exact-arithmetic reading of the
source (Python integers are unbounded, and the design document excludes
adversarial floating point from scope).
-/

namespace ConvexHull

/-- A planar point, mirroring the source's `Point` class with its `x` and
`y` attributes.  Modelled as an immutable value: two points are equal iff
both coordinates agree, which is the equality the source realises by
keying its deduplication set on the tuple `(p.x, p.y)`. -/
structure Point where
  x : Int
  y : Int
deriving DecidableEq, Repr

/-- The source's turn test:
`direction(a,b,c) = (b.x-a.x)*(c.y-a.y) - (b.y-a.y)*(c.x-a.x)`.
A pure function of the three points. -/
def direction (a b c : Point) : Int :=
  (b.x - a.x) * (c.y - a.y) - (b.y - a.y) * (c.x - a.x)

/-- Strict lexicographic order by `(x, y)`, the order induced by the
source's sort key `lambda p: (p.x, p.y)`. -/
def lexLt (p q : Point) : Prop :=
  p.x < q.x ∨ (p.x = q.x ∧ p.y < q.y)

/-- Non-strict lexicographic order by `(x, y)`. -/
def lexLE (p q : Point) : Prop :=
  p.x < q.x ∨ (p.x = q.x ∧ p.y ≤ q.y)

instance : DecidableRel lexLt := fun p q => by unfold lexLt; infer_instance

instance : DecidableRel lexLE := fun p q => by unfold lexLE; infer_instance

instance : IsTotal Point lexLE :=
  ⟨fun p q => by unfold lexLE; omega⟩

instance : IsTrans Point lexLE :=
  ⟨fun p q r hpq hqr => by unfold lexLE at *; omega⟩

instance : IsTrans Point lexLt :=
  ⟨fun p q r hpq hqr => by unfold lexLt at *; omega⟩

instance : IsAntisymm Point lexLt :=
  ⟨fun p q hpq hqp => by unfold lexLt at *; omega⟩

/-- Sorting step of the source (`pts.sort(key=lambda p: (p.x, p.y))`):
order the points ascending by `(x, y)`.  Any correct comparison sort
computes the same list here because after deduplication all keys are
distinct; we use insertion sort. -/
def sortPoints (l : List Point) : List Point :=
  l.insertionSort lexLE

/-- One iteration of the source's chain loop, acting on the chain stored in
reverse (head = top of the Python list): pop while the last two chain
points and the candidate fail to make a strict left turn
(`direction(chain[-2], chain[-1], p) <= 0`), then append the candidate. -/
def chainPush : List Point → Point → List Point
  | b :: a :: rest, p =>
    if direction a b p ≤ 0 then chainPush (a :: rest) p else p :: b :: a :: rest
  | acc, p => p :: acc

/-- The full sweep of the source's chain loop over a list of points,
starting from the empty chain (chain kept in reverse). -/
def chainFold (l : List Point) : List Point :=
  l.foldl chainPush []

/-- The source's `convex_hull`: deduplicate, return sets of size ≤ 1
unchanged, otherwise sort, sweep the lower and the upper chain, drop the
last point of each (`lower[:-1] + upper[:-1]`) and concatenate. -/
def convex_hull (points : List Point) : List Point :=
  let pts := points.dedup
  if pts.length ≤ 1 then pts
  else
    let s := sortPoints pts
    let lower := (chainFold s).reverse
    let upper := (chainFold s.reverse).reverse
    lower.dropLast ++ upper.dropLast

/-- Strict-left-turn property of every three consecutive points of a list. -/
def Convex3 : List Point → Prop
  | a :: b :: c :: rest => 0 < direction a b c ∧ Convex3 (b :: c :: rest)
  | _ => True

instance : ∀ l, Decidable (Convex3 l)
  | [] => .isTrue trivial
  | [_] => .isTrue trivial
  | [_, _] => .isTrue trivial
  | _ :: b :: c :: rest =>
    @instDecidableAnd _ _ _ (instDecidableConvex3 (b :: c :: rest))

/-- Strict-left-turn property of every cyclically consecutive triple of a
list: the triples of the list extended by its first two elements. -/
def CyclicConvex (h : List Point) : Prop :=
  Convex3 (h ++ h.take 2)

instance (h : List Point) : Decidable (CyclicConvex h) := by
  unfold CyclicConvex; infer_instance

/-- Embedding of an integer point into the rational plane, used to state
containment in the convex hull of the output polygon. -/
def toQ (p : Point) : ℚ × ℚ :=
  ((p.x : ℚ), (p.y : ℚ))

/-! ### Basic facts about the order and the turn test -/

theorem lexLt_iff_lexLE_ne {p q : Point} : lexLt p q ↔ lexLE p q ∧ p ≠ q := by
  unfold lexLt lexLE
  constructor
  · intro h
    refine ⟨by omega, ?_⟩
    rintro rfl
    omega
  · rintro ⟨h, hne⟩
    rcases h with h | ⟨hx, hy⟩
    · exact Or.inl h
    · refine Or.inr ⟨hx, lt_of_le_of_ne hy ?_⟩
      intro hy'
      exact hne (by cases p; cases q; simp_all)

theorem lexLt_irrefl (p : Point) : ¬ lexLt p p := by
  unfold lexLt; omega

theorem lexLt_trans {p q r : Point} (h₁ : lexLt p q) (h₂ : lexLt q r) :
    lexLt p r :=
  Trans.trans h₁ h₂

theorem lexLE_refl (p : Point) : lexLE p p := by
  unfold lexLE; omega

theorem lexLt_le {p q : Point} (h : lexLt p q) : lexLE p q := by
  unfold lexLt lexLE at *; omega

theorem lexLE_antisymm {p q : Point} (h₁ : lexLE p q) (h₂ : lexLE q p) :
    p = q := by
  unfold lexLE at *
  cases p; cases q
  simp only [Point.mk.injEq] at *
  omega

theorem lexLE_lt_trans {p q r : Point} (h₁ : lexLE p q) (h₂ : lexLt q r) :
    lexLt p r := by
  unfold lexLE lexLt at *; omega

theorem lexLt_le_trans {p q r : Point} (h₁ : lexLt p q) (h₂ : lexLE q r) :
    lexLt p r := by
  unfold lexLE lexLt at *; omega

theorem lexLE_total (p q : Point) : lexLE p q ∨ lexLE q p := by
  unfold lexLE; omega

theorem lexLt_or_le (p q : Point) : lexLt p q ∨ lexLE q p := by
  unfold lexLt lexLE; omega

/-! ### Displacement vectors and the planar cross product -/

/-- Displacement vector from `q` to `p`. -/
def vsub (p q : Point) : Int × Int :=
  (p.x - q.x, p.y - q.y)

/-- Planar cross product of two displacement vectors. -/
def cross (u v : Int × Int) : Int :=
  u.1 * v.2 - u.2 * v.1

/-- A vector is forward when it is lexicographically positive; the
displacement between two sorted points is always forward. -/
def Fwd (u : Int × Int) : Prop :=
  0 < u.1 ∨ (u.1 = 0 ∧ 0 < u.2)

theorem lexLt_iff_fwd {p q : Point} : lexLt p q ↔ Fwd (vsub q p) := by
  unfold lexLt Fwd vsub
  omega

theorem direction_eq_cross (a b c : Point) :
    direction a b c = cross (vsub b a) (vsub c a) := rfl

theorem direction_eq_cross_edge (a b c : Point) :
    direction a b c = cross (vsub b a) (vsub c b) := by
  simp only [direction, cross, vsub]; ring

theorem direction_swap (a b c : Point) :
    direction a b c = - direction a c b := by
  simp only [direction]; ring

theorem direction_cyclic (a b c : Point) :
    direction a b c = direction b c a := by
  simp only [direction]; ring

theorem direction_self_left (a c : Point) : direction a a c = 0 := by
  simp only [direction]; ring

theorem direction_self_right (a b : Point) : direction a b b = 0 := by
  simp only [direction]; ring

theorem direction_self_mid (a b : Point) : direction a b a = 0 := by
  simp only [direction]; ring

theorem vsub_add (a b c : Point) : vsub a c = vsub a b + vsub b c := by
  simp only [vsub, Prod.mk_add_mk, Prod.mk.injEq]
  constructor <;> ring

theorem cross_add_left (u v w : Int × Int) :
    cross (u + v) w = cross u w + cross v w := by
  simp only [cross, Prod.fst_add, Prod.snd_add]; ring

theorem cross_add_right (u v w : Int × Int) :
    cross u (v + w) = cross u v + cross u w := by
  simp only [cross, Prod.fst_add, Prod.snd_add]; ring

theorem cross_comm_neg (u v : Int × Int) : cross u v = - cross v u := by
  simp only [cross]; ring

theorem cross_self (u : Int × Int) : cross u u = 0 := by
  simp only [cross]; ring

theorem fwd_nonneg_x {u : Int × Int} (h : Fwd u) : 0 ≤ u.1 := by
  rcases h with h | ⟨h, _⟩ <;> omega

theorem fwd_add {u v : Int × Int} (hu : Fwd u) (hv : Fwd v) : Fwd (u + v) := by
  simp only [Fwd, Prod.fst_add, Prod.snd_add] at *
  omega

theorem fwd_ne_zero {u : Int × Int} (h : Fwd u) : u ≠ 0 := by
  rintro rfl
  simp only [Fwd, Prod.fst_zero, Prod.snd_zero] at h
  omega

theorem fwd_or_fwd_neg {u : Int × Int} (h : u ≠ 0) : Fwd u ∨ Fwd (-u) := by
  rcases u with ⟨a, b⟩
  simp only [Fwd, Prod.neg_mk, Prod.mk_eq_zero, ne_eq, not_and] at *
  omega

/-- The fundamental three-vector identity behind all transitivity lemmas. -/
theorem cross_key (u v w : Int × Int) :
    cross u w * v.1 = cross u v * w.1 + cross v w * u.1 := by
  simp only [cross]; ring

/-- Transitivity of non-negative turning among forward vectors. -/
theorem cross_trans {u v w : Int × Int} (hu : Fwd u) (hv : Fwd v) (hw : Fwd w)
    (h1 : 0 ≤ cross u v) (h2 : 0 ≤ cross v w) : 0 ≤ cross u w := by
  obtain ⟨u1, u2⟩ := u
  obtain ⟨v1, v2⟩ := v
  obtain ⟨w1, w2⟩ := w
  simp only [cross, Fwd] at *
  have hu1 : 0 ≤ u1 := by omega
  have hw1 : 0 ≤ w1 := by omega
  rcases hv with hv | ⟨hv1, hv2⟩
  · nlinarith [mul_nonneg h1 hw1, mul_nonneg h2 hu1]
  · subst hv1
    rcases hw with hw | ⟨hw1', hw2⟩
    · exfalso; nlinarith [mul_pos hv2 hw]
    · subst hw1'
      rcases hu with hu | ⟨hu1', hu2⟩
      · nlinarith [mul_pos hu hw2]
      · subst hu1'
        nlinarith

/-- Strict transitivity: a strict first turn stays strict. -/
theorem cross_trans_lt_left {u v w : Int × Int} (hu : Fwd u) (hv : Fwd v)
    (hw : Fwd w) (h1 : 0 < cross u v) (h2 : 0 ≤ cross v w) :
    0 < cross u w := by
  obtain ⟨u1, u2⟩ := u
  obtain ⟨v1, v2⟩ := v
  obtain ⟨w1, w2⟩ := w
  simp only [cross, Fwd] at *
  have hu1 : 0 ≤ u1 := by omega
  rcases hv with hv | ⟨hv1, hv2⟩
  · rcases hw with hw | ⟨hw1, hw2⟩
    · nlinarith [mul_pos h1 hw, mul_nonneg h2 hu1]
    · subst hw1
      rcases hu with hu | ⟨hu1', hu2⟩
      · nlinarith [mul_pos hu hw2, mul_pos hv hw2]
      · exfalso
        subst hu1'
        nlinarith [mul_pos hu2 hv]
  · subst hv1
    have hu1' : 0 < u1 := by
      rcases hu with hu | ⟨hu1', hu2⟩
      · exact hu
      · exfalso; subst hu1'; nlinarith
    rcases hw with hw | ⟨hw1, hw2⟩
    · exfalso; nlinarith [mul_pos hv2 hw]
    · subst hw1
      nlinarith [mul_pos hu1' hw2]

/-- Strict transitivity: a strict second turn stays strict. -/
theorem cross_trans_lt_right {u v w : Int × Int} (hu : Fwd u) (hv : Fwd v)
    (hw : Fwd w) (h1 : 0 ≤ cross u v) (h2 : 0 < cross v w) :
    0 < cross u w := by
  obtain ⟨u1, u2⟩ := u
  obtain ⟨v1, v2⟩ := v
  obtain ⟨w1, w2⟩ := w
  simp only [cross, Fwd] at *
  have hw1 : 0 ≤ w1 := by omega
  rcases hv with hv | ⟨hv1, hv2⟩
  · rcases hu with hu | ⟨hu1, hu2⟩
    · nlinarith [mul_pos h2 hu, mul_nonneg h1 hw1]
    · exfalso
      subst hu1
      nlinarith [mul_pos hu2 hv]
  · exfalso
    subst hv1
    nlinarith [mul_nonneg (le_of_lt hv2) hw1]

/-- Parallel forward vectors induce the same half-plane splitting. -/
theorem cross_parallel_nonneg {b b' z : Int × Int} (hb : Fwd b) (hb' : Fwd b')
    (hpar : cross b b' = 0) (h : 0 ≤ cross b z) : 0 ≤ cross b' z := by
  have key1 : cross b z * b'.1 = cross b' z * b.1 + z.1 * cross b b' := by
    simp only [cross]; ring
  have key2 : cross b z * b'.2 = cross b' z * b.2 + z.2 * cross b b' := by
    simp only [cross]; ring
  rw [hpar, mul_zero, add_zero] at key1 key2
  have hpar' : b.1 * b'.2 = b.2 * b'.1 := by
    have hd : cross b b' = b.1 * b'.2 - b.2 * b'.1 := rfl
    linarith
  rcases hb with hb1 | ⟨hb1, hb2⟩
  · have hb'1 : 0 < b'.1 := by
      rcases hb' with h' | ⟨h'1, h'2⟩
      · exact h'
      · exfalso
        rw [h'1, mul_zero] at hpar'
        rcases mul_eq_zero.mp hpar' with h0 | h0 <;> omega
    nlinarith
  · have hb'1 : b'.1 = 0 := by
      rw [hb1, zero_mul] at hpar'
      rcases mul_eq_zero.mp hpar'.symm with h0 | h0 <;> omega
    have hb'2 : 0 < b'.2 := by
      rcases hb' with h' | ⟨h'1, h'2⟩ <;> omega
    nlinarith

/-- A vector orthogonal in cross product to two independent vectors is zero. -/
theorem eq_zero_of_cross_cross {a b u : Int × Int} (h1 : cross a u = 0)
    (h2 : cross b u = 0) (hab : cross a b ≠ 0) : u = 0 := by
  have k1 : cross a b * u.1 = cross a u * b.1 - cross b u * a.1 := by
    simp only [cross]; ring
  have k2 : cross a b * u.2 = cross a u * b.2 - cross b u * a.2 := by
    simp only [cross]; ring
  rw [h1, h2] at k1 k2
  simp only [zero_mul, sub_zero] at k1 k2
  have hu1 : u.1 = 0 := by
    rcases mul_eq_zero.mp k1 with h0 | h0
    · exact absurd h0 hab
    · exact h0
  have hu2 : u.2 = 0 := by
    rcases mul_eq_zero.mp k2 with h0 | h0
    · exact absurd h0 hab
    · exact h0
  rcases u with ⟨u1, u2⟩
  simp only [Prod.mk_eq_zero]
  exact ⟨hu1, hu2⟩

theorem vsub_self (a : Point) : vsub a a = 0 := by
  simp [vsub]

theorem vsub_neg (a b : Point) : vsub a b = - vsub b a := by
  simp only [vsub, Prod.neg_mk, Prod.mk.injEq]
  constructor <;> ring

theorem cross_zero_left (v : Int × Int) : cross 0 v = 0 := by
  simp only [cross, Prod.fst_zero, Prod.snd_zero]; ring

theorem cross_zero_right (v : Int × Int) : cross v 0 = 0 := by
  simp only [cross, Prod.fst_zero, Prod.snd_zero]; ring

theorem cross_neg_left (u v : Int × Int) : cross (-u) v = - cross u v := by
  simp only [cross, Prod.fst_neg, Prod.snd_neg]; ring

theorem cross_neg_right (u v : Int × Int) : cross u (-v) = - cross u v := by
  simp only [cross, Prod.fst_neg, Prod.snd_neg]; ring

/-! ### Chains, stored in reverse (head of the list = top of the stack) -/

/-- The reversed chain is strictly decreasing in the sort order: points are
pushed in strictly increasing sorted order. -/
@[reducible] def RSorted (acc : List Point) : Prop :=
  acc.Chain' (fun b a => lexLt a b)

/-- Every consecutive triple of the reversed chain is a strict left turn
when read in sweep order. -/
def RConvex : List Point → Prop
  | c :: b :: a :: rest => 0 < direction a b c ∧ RConvex (b :: a :: rest)
  | _ => True

/-- `Supports acc q`: the point `q` lies on or to the left of the line of
every edge of the (reversed) chain `acc`. -/
@[reducible] def Supports (acc : List Point) (q : Point) : Prop :=
  acc.Chain' (fun b a => 0 ≤ direction a b q)

theorem rconvex_tail {x : Point} {l : List Point} (h : RConvex (x :: l)) :
    RConvex l := by
  match l with
  | [] => trivial
  | [_] => trivial
  | b :: a :: rest => exact h.2

theorem rsorted_tail {x : Point} {l : List Point} (h : RSorted (x :: l)) :
    RSorted l :=
  List.Chain'.tail h

theorem supports_tail {x q : Point} {l : List Point} (h : Supports (x :: l) q) :
    Supports l q :=
  List.Chain'.tail h

theorem chain'_of_decomp {R : Point → Point → Prop} {l pre post : List Point}
    {x y : Point} (h : l.Chain' R) (hd : l = pre ++ x :: y :: post) : R x y := by
  have hinf : [x, y] <:+: l := ⟨pre, post, by simp [hd]⟩
  have hxy := h.infix hinf
  exact (List.chain'_pair).mp hxy

theorem rsorted_of_decomp {l pre post : List Point} {x y : Point}
    (h : RSorted l) (hd : l = pre ++ x :: y :: post) : lexLt y x :=
  @chain'_of_decomp (fun b a => lexLt a b) l pre post x y h hd

theorem supports_of_decomp {l pre post : List Point} {x y q : Point}
    (h : Supports l q) (hd : l = pre ++ x :: y :: post) :
    0 ≤ direction y x q :=
  @chain'_of_decomp (fun b a => 0 ≤ direction a b q) l pre post x y h hd

theorem shallow_of_decomp {L : Int × Int} {l pre post : List Point}
    {x y : Point}
    (h : List.Chain' (fun s t => 0 < cross (vsub s t) L) l)
    (hd : l = pre ++ x :: y :: post) : 0 < cross (vsub x y) L :=
  @chain'_of_decomp (fun s t => 0 < cross (vsub s t) L) l pre post x y h hd

/-- Every vertex of a chain whose edges all turn strictly left of `L` is
reached from the top by a vector weakly left of `L`. -/
theorem verts_shallow (L : Int × Int) :
    ∀ (b : Point) (rest : List Point),
      List.Chain' (fun s t => 0 < cross (vsub s t) L) (b :: rest) →
      ∀ x ∈ b :: rest, 0 ≤ cross (vsub b x) L := by
  intro b rest
  induction rest generalizing b with
  | nil =>
    intro _ x hx
    rw [List.mem_singleton] at hx
    subst hx
    rw [vsub_self, cross_zero_left]
  | cons a rest' ih =>
    intro hch x hx
    rcases List.mem_cons.mp hx with rfl | hx'
    · rw [vsub_self, cross_zero_left]
    · have hpair : 0 < cross (vsub b a) L := (List.chain'_cons.mp hch).1
      have hrec := ih a (List.chain'_cons.mp hch).2 x hx'
      have hsum : vsub b x = vsub b a + vsub a x := vsub_add b a x
      rw [hsum, cross_add_left]
      linarith

/-- If the top edge of a sorted convex chain turns strictly left of a
forward vector `L`, then every edge of the chain does. -/
theorem edges_shallow (L : Int × Int) (hL : Fwd L) :
    ∀ (b : Point) (rest : List Point), RSorted (b :: rest) →
      RConvex (b :: rest) →
      (∀ a, rest.head? = some a → 0 < cross (vsub b a) L) →
      List.Chain' (fun s t => 0 < cross (vsub s t) L) (b :: rest) := by
  intro b rest
  induction rest generalizing b with
  | nil => intro _ _ _; simp
  | cons a rest' ih =>
    intro hs hc htop
    have htop' : 0 < cross (vsub b a) L := htop a rfl
    rw [List.chain'_cons]
    refine ⟨htop', ?_⟩
    apply ih a (rsorted_tail hs) (rconvex_tail hc)
    intro x hx
    cases rest' with
    | nil => simp at hx
    | cons x' rest'' =>
      simp only [List.head?_cons, Option.some.injEq] at hx
      subst hx
      have hcvx : 0 < direction x' a b := hc.1
      have hab : lexLt a b := (List.chain'_cons.mp hs).1
      have hxa : lexLt x' a := (List.chain'_cons.mp (rsorted_tail hs)).1
      have h1 : 0 < cross (vsub a x') (vsub b a) := by
        have he := direction_eq_cross_edge x' a b
        rw [he] at hcvx
        exact hcvx
      exact cross_trans_lt_left (lexLt_iff_fwd.mp hxa) (lexLt_iff_fwd.mp hab)
        hL h1 (le_of_lt htop')

/-- In a chain whose last element is on or below `q` and whose head is on
or above `q`, some adjacent pair brackets `q`. -/
theorem bracket_exists :
    ∀ (rest : List Point) (c q : Point), lexLE q c →
      (∀ z, (c :: rest).getLast? = some z → lexLE z q) →
      rest ≠ [] →
      ∃ pre x y post, c :: rest = pre ++ x :: y :: post ∧
        lexLE y q ∧ lexLE q x := by
  intro rest
  induction rest with
  | nil => intro c q _ _ h; exact absurd rfl h
  | cons a rest' ih =>
    intro c q hqc hlast _
    by_cases haq : lexLE a q
    · exact ⟨[], c, a, rest', rfl, haq, hqc⟩
    · have hqa : lexLE q a := by
        rcases lexLE_total a q with h | h
        · exact absurd h haq
        · exact h
      cases rest' with
      | nil =>
        exfalso
        exact haq (hlast a rfl)
      | cons a2 rest'' =>
        have hlast' : ∀ z, (a :: a2 :: rest'').getLast? = some z → lexLE z q := by
          intro z hz
          exact hlast z (by rwa [List.getLast?_cons_cons])
        obtain ⟨pre, x, y, post, hdec, hy, hx⟩ :=
          ih a q hqa hlast' (by simp)
        exact ⟨c :: pre, x, y, post, by rw [List.cons_append, ← hdec], hy, hx⟩

/-- A processed point at or below the stop vertex lies on or left of the
new edge from the stop vertex to the incoming point. -/
theorem earlier_above (p c : Point) (rest : List Point) (q : Point)
    (hs : RSorted (c :: rest)) (hc : RConvex (c :: rest))
    (hsup : Supports (c :: rest) q) (hqc : lexLE q c)
    (hlast : ∀ z, (c :: rest).getLast? = some z → lexLE z q)
    (hcp : lexLt c p)
    (hstop : ∀ a, rest.head? = some a → 0 < direction a c p) :
    0 ≤ direction c p q := by
  by_cases hqc' : q = c
  · subst hqc'
    rw [direction_self_mid]
  · have hqlt : lexLt q c := lexLt_iff_lexLE_ne.mpr ⟨hqc, hqc'⟩
    cases rest with
    | nil =>
      exfalso
      exact lexLt_irrefl q (lexLt_le_trans hqlt (hlast c rfl))
    | cons a rest' =>
      have hLf : Fwd (vsub p c) := lexLt_iff_fwd.mp hcp
      have htop : ∀ a', (a :: rest').head? = some a' →
          0 < cross (vsub c a') (vsub p c) := by
        intro a' ha'
        simp only [List.head?_cons, Option.some.injEq] at ha'
        subst ha'
        rw [← direction_eq_cross_edge a c p]
        exact hstop a rfl
      have hch := edges_shallow (vsub p c) hLf c (a :: rest') hs hc htop
      obtain ⟨pre, x, y, post, hdec, hyq, hqx⟩ :=
        bracket_exists (a :: rest') c q hqc hlast (by simp)
      have hxy : lexLt y x := rsorted_of_decomp hs hdec
      have hsupxy : 0 ≤ direction y x q := supports_of_decomp hsup hdec
      have hshxy : 0 < cross (vsub x y) (vsub p c) := shallow_of_decomp hch hdec
      have hxmem : x ∈ c :: a :: rest' := by rw [hdec]; simp
      have hvert : 0 ≤ cross (vsub c x) (vsub p c) :=
        verts_shallow (vsub p c) c (a :: rest') hch x hxmem
      have hsplit : direction c p q =
          cross (vsub p c) (vsub q x) + cross (vsub c x) (vsub p c) := by
        simp only [direction, cross, vsub]
        ring
      rw [hsplit]
      have hB : 0 ≤ cross (vsub p c) (vsub q x) := by
        by_cases hqx' : q = x
        · subst hqx'
          rw [vsub_self, cross_zero_right]
        · have hqxlt : lexLt q x := lexLt_iff_lexLE_ne.mpr ⟨hqx, hqx'⟩
          have hconv : cross (vsub p c) (vsub q x) =
              cross (vsub x q) (vsub p c) := by
            simp only [cross, vsub]; ring
          rw [hconv]
          have huv : 0 ≤ cross (vsub x q) (vsub x y) := by
            have hid : direction y x q = cross (vsub x q) (vsub x y) := by
              simp only [direction, cross, vsub]; ring
            rw [hid] at hsupxy
            exact hsupxy
          exact cross_trans (lexLt_iff_fwd.mp hqxlt) (lexLt_iff_fwd.mp hxy)
            hLf huv (le_of_lt hshxy)
      linarith

/-- The incoming point, strictly above the top edge of a sorted convex
chain, lies on or left of every edge of the chain. -/
theorem supports_of_top (p : Point) :
    ∀ (b : Point) (rest : List Point), RSorted (b :: rest) →
      RConvex (b :: rest) →
      (∀ a, rest.head? = some a → 0 < direction a b p) →
      (∀ x ∈ b :: rest, lexLt x p) →
      Supports (b :: rest) p := by
  intro b rest
  induction rest generalizing b with
  | nil =>
    intro _ _ _ _
    simp [Supports]
  | cons a rest' ih =>
    intro hs hc htop hlt
    rw [Supports, List.chain'_cons]
    refine ⟨le_of_lt (htop a rfl), ?_⟩
    apply ih a (rsorted_tail hs) (rconvex_tail hc)
    · intro x hx
      cases rest' with
      | nil => simp at hx
      | cons x' rest'' =>
        simp only [List.head?_cons, Option.some.injEq] at hx
        subst hx
        have hcvx : 0 < direction x' a b := hc.1
        have hab : lexLt a b := (List.chain'_cons.mp hs).1
        have hxa : lexLt x' a := (List.chain'_cons.mp (rsorted_tail hs)).1
        have hap : lexLt a p := hlt a (by simp)
        have h1 : 0 < cross (vsub a x') (vsub b a) := by
          rw [← direction_eq_cross_edge x' a b]
          exact hcvx
        have h2 : 0 < cross (vsub b a) (vsub p a) := by
          rw [← direction_eq_cross a b p]
          exact htop a rfl
        have h3 := cross_trans_lt_left (lexLt_iff_fwd.mp hxa)
          (lexLt_iff_fwd.mp hab) (lexLt_iff_fwd.mp hap) h1 (le_of_lt h2)
        rw [direction_eq_cross_edge x' a p]
        exact h3
    · intro x hx
      exact hlt x (List.mem_cons_of_mem b hx)

/-! ### Shape of a single push -/

theorem chainPush_eq_cons :
    ∀ (acc : List Point) (p : Point),
      ∃ t, chainPush acc p = p :: t ∧ t <:+ acc := by
  intro acc p
  induction acc with
  | nil => exact ⟨[], rfl, List.nil_suffix⟩
  | cons b tl ih =>
    cases tl with
    | nil => exact ⟨[b], by simp [chainPush], List.suffix_refl _⟩
    | cons a rest =>
      by_cases hd : direction a b p ≤ 0
      · obtain ⟨t, ht, hsuf⟩ := ih
        refine ⟨t, ?_, hsuf.trans (List.suffix_cons b (a :: rest))⟩
        rw [show chainPush (b :: a :: rest) p = chainPush (a :: rest) p
          from by simp [chainPush, hd]]
        exact ht
      · exact ⟨b :: a :: rest, by simp [chainPush, hd], List.suffix_refl _⟩

theorem chainPush_ne_nil (acc : List Point) (p : Point) :
    chainPush acc p ≠ [] := by
  obtain ⟨t, ht, _⟩ := chainPush_eq_cons acc p
  rw [ht]
  exact List.cons_ne_nil _ _

theorem chainPush_head? (acc : List Point) (p : Point) :
    (chainPush acc p).head? = some p := by
  obtain ⟨t, ht, _⟩ := chainPush_eq_cons acc p
  rw [ht]
  rfl

theorem chainPush_getLast? (p : Point) :
    ∀ (acc : List Point), acc ≠ [] →
      (chainPush acc p).getLast? = acc.getLast? := by
  intro acc
  induction acc with
  | nil => intro h; exact absurd rfl h
  | cons b tl ih =>
    intro _
    cases tl with
    | nil => simp [chainPush]
    | cons a rest =>
      by_cases hd : direction a b p ≤ 0
      · rw [show chainPush (b :: a :: rest) p = chainPush (a :: rest) p
          from by simp [chainPush, hd]]
        rw [ih (by simp), List.getLast?_cons_cons]
      · rw [show chainPush (b :: a :: rest) p = p :: b :: a :: rest
          from by simp [chainPush, hd]]
        rw [List.getLast?_cons_cons]

/-- Master lemma for a single step of the sweep: pushing the next point of
the sorted order onto a valid chain yields a valid chain, and both the old
processed points and the new point lie on or left of every edge. -/
theorem chainPush_master (p : Point) (Q : List Point)
    (hQp : ∀ q ∈ Q, lexLt q p) :
    ∀ (acc : List Point), acc ≠ [] →
      RSorted acc → RConvex acc →
      (∀ q ∈ Q, Supports acc q) →
      (∀ x ∈ acc, x ∈ Q) →
      (∀ c, acc.head? = some c → ∀ q ∈ Q, lexLE q c ∨ 0 ≤ direction c p q) →
      (∀ z, acc.getLast? = some z → ∀ q ∈ Q, lexLE z q) →
      RSorted (chainPush acc p) ∧ RConvex (chainPush acc p) ∧
        (∀ q ∈ Q, Supports (chainPush acc p) q) ∧
        Supports (chainPush acc p) p := by
  intro acc
  induction acc with
  | nil => intro h; exact absurd rfl h
  | cons b tl ih =>
    intro _ hs hc hsupp hmem hGH hlast
    have hbp : lexLt b p := hQp b (hmem b (by simp))
    cases tl with
    | nil =>
      rw [show chainPush [b] p = [p, b] from by simp [chainPush]]
      refine ⟨?_, trivial, ?_, ?_⟩
      · exact List.chain'_pair.mpr hbp
      · intro q hq
        apply List.chain'_pair.mpr
        rcases hGH b rfl q hq with hqb | hdir
        · have hbq : lexLE b q := hlast b rfl q hq
          rw [lexLE_antisymm hqb hbq, direction_self_mid]
        · exact hdir
      · apply List.chain'_pair.mpr
        rw [direction_self_right]
    | cons a rest =>
      have hab : lexLt a b := (List.chain'_cons.mp hs).1
      by_cases hd : direction a b p ≤ 0
      · -- pop `b` and recurse
        rw [show chainPush (b :: a :: rest) p = chainPush (a :: rest) p
          from by simp [chainPush, hd]]
        apply ih (by simp) (rsorted_tail hs) (rconvex_tail hc)
          (fun q hq => supports_tail (hsupp q hq))
          (fun x hx => hmem x (List.mem_cons_of_mem b hx))
        · -- the generalized hypothesis survives the pop
          intro c hcc q hq
          simp only [List.head?_cons, Option.some.injEq] at hcc
          subst hcc
          rcases lexLt_or_le a q with haq | hqa
          · right
            have hsupba : 0 ≤ direction a b q :=
              (List.chain'_cons.mp (hsupp q hq)).1
            rcases hGH b rfl q hq with hqb | hdirb
            · -- a < q ≤ b : transitivity of turning
              have hap : lexLt a p := lexLt_trans hab hbp
              have h1 : 0 ≤ cross (vsub p a) (vsub b a) := by
                have hi : cross (vsub p a) (vsub b a) = - direction a b p := by
                  simp only [direction, cross, vsub]; ring
                rw [hi]
                linarith
              have h2 : 0 ≤ cross (vsub b a) (vsub q a) := by
                rw [← direction_eq_cross]
                exact hsupba
              rw [direction_eq_cross]
              exact cross_trans (lexLt_iff_fwd.mp hap) (lexLt_iff_fwd.mp hab)
                (lexLt_iff_fwd.mp haq) h1 h2
            · -- q beyond b : linear decomposition
              have hid : direction a p q =
                  direction b p q - direction a b p + direction a b q := by
                simp only [direction]; ring
              linarith
          · exact Or.inl hqa
        · intro z hz q hq
          exact hlast z (by rwa [List.getLast?_cons_cons]) q hq
      · -- strict left turn: stop and cons `p`
        have hd' : 0 < direction a b p := by omega
        have hstop : ∀ a', (a :: rest).head? = some a' →
            0 < direction a' b p := by
          intro a' ha'
          simp only [List.head?_cons, Option.some.injEq] at ha'
          subst ha'
          exact hd'
        rw [show chainPush (b :: a :: rest) p = p :: b :: a :: rest
          from by simp [chainPush, hd]]
        refine ⟨List.chain'_cons.mpr ⟨hbp, hs⟩, ⟨hd', hc⟩, ?_, ?_⟩
        · intro q hq
          apply List.chain'_cons.mpr
          refine ⟨?_, hsupp q hq⟩
          rcases hGH b rfl q hq with hqb | hdirb
          · exact earlier_above p b (a :: rest) q hs hc (hsupp q hq) hqb
              (fun z hz => hlast z hz q hq) hbp hstop
          · exact hdirb
        · apply List.chain'_cons.mpr
          refine ⟨?_, ?_⟩
          · rw [direction_self_right]
          · exact supports_of_top p b (a :: rest) hs hc hstop
              (fun x hx => hQp x (hmem x hx))

/-! ### The sweep invariant -/

/-- Invariant of the sweep relating a processed prefix `Q` (in sorted
order) to the current chain `acc` (in reverse). -/
structure Inv (Q acc : List Point) : Prop where
  ne : acc ≠ []
  sorted : RSorted acc
  convex : RConvex acc
  supp : ∀ q ∈ Q, Supports acc q
  mem : ∀ x ∈ acc, x ∈ Q
  headmax : ∀ c, acc.head? = some c → ∀ q ∈ Q, lexLE q c
  lastmin : ∀ z, acc.getLast? = some z → ∀ q ∈ Q, lexLE z q
  head_last : acc.head? = Q.getLast?
  last_first : acc.getLast? = Q.head?

theorem inv_singleton (x : Point) : Inv [x] [x] := by
  refine ⟨by simp, ?_, trivial, ?_, ?_, ?_, ?_, rfl, rfl⟩
  · simp [RSorted]
  · intro q _
    simp [Supports]
  · intro y hy
    exact hy
  · intro c hc q hq
    simp only [List.head?_cons, Option.some.injEq] at hc
    simp only [List.mem_singleton] at hq
    subst hc
    subst hq
    exact lexLE_refl q
  · intro z hz q hq
    simp only [List.getLast?_singleton, Option.some.injEq] at hz
    simp only [List.mem_singleton] at hq
    subst hz
    subst hq
    exact lexLE_refl q

theorem inv_step {Q acc : List Point} (inv : Inv Q acc) (p : Point)
    (hQp : ∀ q ∈ Q, lexLt q p) : Inv (Q ++ [p]) (chainPush acc p) := by
  obtain ⟨hsort, hconv, hsupp, hsuppP⟩ :=
    chainPush_master p Q hQp acc inv.ne inv.sorted inv.convex inv.supp
      inv.mem (fun c hc q hq => Or.inl (inv.headmax c hc q hq)) inv.lastmin
  have hQne : Q ≠ [] := by
    intro h
    rcases acc with _ | ⟨x, tl⟩
    · exact inv.ne rfl
    · exact absurd (inv.mem x (by simp)) (by simp [h])
  refine ⟨chainPush_ne_nil acc p, hsort, hconv, ?_, ?_, ?_, ?_, ?_, ?_⟩
  · intro q hq
    rcases List.mem_append.mp hq with hq' | hq'
    · exact hsupp q hq'
    · rw [List.mem_singleton] at hq'
      subst hq'
      exact hsuppP
  · intro x hx
    obtain ⟨t, ht, hsuf⟩ := chainPush_eq_cons acc p
    rw [ht] at hx
    rcases List.mem_cons.mp hx with rfl | hx'
    · simp
    · exact List.mem_append.mpr (Or.inl (inv.mem x
        (hsuf.sublist.mem hx')))
  · intro c hc q hq
    rw [chainPush_head?] at hc
    injection hc with hc
    subst hc
    rcases List.mem_append.mp hq with hq' | hq'
    · exact lexLt_le (hQp q hq')
    · rw [List.mem_singleton] at hq'
      subst hq'
      exact lexLE_refl q
  · intro z hz q hq
    rw [chainPush_getLast? p acc inv.ne] at hz
    rcases List.mem_append.mp hq with hq' | hq'
    · exact inv.lastmin z hz q hq'
    · rw [List.mem_singleton] at hq'
      subst hq'
      have hzacc : z ∈ acc := List.mem_of_mem_getLast? hz
      exact lexLt_le (hQp z (inv.mem z hzacc))
  · rw [chainPush_head?, List.getLast?_concat]
  · rw [chainPush_getLast? p acc inv.ne, inv.last_first]
    rcases Q with _ | ⟨x, tl⟩
    · exact absurd rfl hQne
    · simp

theorem inv_fold :
    ∀ (l Q acc : List Point), Inv Q acc → List.Pairwise lexLt l →
      (∀ q ∈ Q, ∀ x ∈ l, lexLt q x) →
      Inv (Q ++ l) (l.foldl chainPush acc) := by
  intro l
  induction l with
  | nil =>
    intro Q acc inv _ _
    simpa using inv
  | cons x l' ih =>
    intro Q acc inv hl hQl
    have inv' : Inv (Q ++ [x]) (chainPush acc x) :=
      inv_step inv x (fun q hq => hQl q hq x (by simp))
    have hl' : List.Pairwise lexLt l' := hl.of_cons
    have hQl' : ∀ q ∈ Q ++ [x], ∀ y ∈ l', lexLt q y := by
      intro q hq y hy
      rcases List.mem_append.mp hq with hq' | hq'
      · exact hQl q hq' y (List.mem_cons_of_mem x hy)
      · rw [List.mem_singleton] at hq'
        subst hq'
        exact (List.pairwise_cons.mp hl).1 y hy
    have hres := ih (Q ++ [x]) (chainPush acc x) inv' hl' hQl'
    rw [List.append_assoc] at hres
    simpa using hres

/-- The sweep of a nonempty strictly sorted list satisfies the invariant. -/
theorem chainFold_inv (x : Point) (l : List Point)
    (hl : List.Pairwise lexLt (x :: l)) :
    Inv (x :: l) (chainFold (x :: l)) := by
  have h0 : chainFold (x :: l) = l.foldl chainPush [x] := by
    simp [chainFold, List.foldl_cons, chainPush]
  rw [h0]
  have hres := inv_fold l [x] [x] (inv_singleton x) hl.of_cons
    (by
      intro q hq y hy
      rw [List.mem_singleton] at hq
      subst hq
      exact (List.pairwise_cons.mp hl).1 y hy)
  simpa using hres

/-! ### Central symmetry: the upper chain is a reflected lower chain -/

/-- Central reflection of a point. -/
def negP (p : Point) : Point :=
  ⟨-p.x, -p.y⟩

theorem negP_negP (p : Point) : negP (negP p) = p := by
  simp [negP]

theorem map_negP_negP (l : List Point) : (l.map negP).map negP = l := by
  rw [List.map_map]
  have h : negP ∘ negP = id := by
    funext p
    simp [negP_negP]
  rw [h, List.map_id]

theorem direction_negP (a b c : Point) :
    direction (negP a) (negP b) (negP c) = direction a b c := by
  simp only [direction, negP]
  ring

theorem lexLt_negP {p q : Point} : lexLt (negP q) (negP p) ↔ lexLt p q := by
  simp only [lexLt, negP]
  omega

theorem chainPush_negP :
    ∀ (acc : List Point) (p : Point),
      chainPush (acc.map negP) (negP p) = (chainPush acc p).map negP := by
  intro acc p
  induction acc with
  | nil => simp [chainPush]
  | cons b tl ih =>
    cases tl with
    | nil => simp [chainPush]
    | cons a rest =>
      by_cases hd : direction a b p ≤ 0
      · rw [show chainPush (b :: a :: rest) p = chainPush (a :: rest) p
          from by simp [chainPush, hd]]
        rw [← ih]
        simp only [List.map_cons]
        rw [show chainPush (negP b :: negP a :: rest.map negP) (negP p) =
            chainPush (negP a :: rest.map negP) (negP p) from by
          simp [chainPush, direction_negP, hd]]
      · rw [show chainPush (b :: a :: rest) p = p :: b :: a :: rest
          from by simp [chainPush, hd]]
        simp only [List.map_cons]
        rw [show chainPush (negP b :: negP a :: rest.map negP) (negP p) =
            negP p :: negP b :: negP a :: rest.map negP from by
          simp [chainPush, direction_negP, hd]]

theorem foldl_chainPush_negP :
    ∀ (l acc : List Point),
      (l.map negP).foldl chainPush (acc.map negP) =
        (l.foldl chainPush acc).map negP := by
  intro l
  induction l with
  | nil => intro acc; simp
  | cons x l' ih =>
    intro acc
    simp only [List.map_cons, List.foldl_cons]
    rw [chainPush_negP, ih]

theorem chainFold_negP (l : List Point) :
    chainFold (l.map negP) = (chainFold l).map negP := by
  have h := foldl_chainPush_negP l []
  simpa [chainFold] using h

/-! ### The sorted deduplicated working list -/

/-- The sorted deduplicated list the sweeps run over. -/
def hullSorted (points : List Point) : List Point :=
  sortPoints points.dedup

theorem sortPoints_perm (l : List Point) : List.Perm (sortPoints l) l :=
  List.perm_insertionSort lexLE l

theorem mem_sortPoints {l : List Point} {p : Point} :
    p ∈ sortPoints l ↔ p ∈ l :=
  (sortPoints_perm l).mem_iff

theorem sortPoints_sorted_le (l : List Point) :
    List.Pairwise lexLE (sortPoints l) :=
  List.sorted_insertionSort lexLE l

theorem sortPoints_sorted {l : List Point} (hnd : l.Nodup) :
    List.Pairwise lexLt (sortPoints l) := by
  have hnd' : (sortPoints l).Nodup := (sortPoints_perm l).nodup_iff.mpr hnd
  have hboth := (sortPoints_sorted_le l).and hnd'
  exact hboth.imp (fun h => lexLt_iff_lexLE_ne.mpr h)

theorem hullSorted_sorted (points : List Point) :
    List.Pairwise lexLt (hullSorted points) :=
  sortPoints_sorted (List.nodup_dedup points)

theorem mem_hullSorted {points : List Point} {p : Point} :
    p ∈ hullSorted points ↔ p ∈ points := by
  rw [hullSorted, mem_sortPoints, List.mem_dedup]

theorem hullSorted_length (points : List Point) :
    (hullSorted points).length = points.dedup.length := by
  exact (sortPoints_perm points.dedup).length_eq

/-- Unfolding of `convex_hull` in the non-trivial case. -/
theorem convex_hull_eq_of_two_le {points : List Point}
    (h : 2 ≤ points.dedup.length) :
    convex_hull points =
      (chainFold (hullSorted points)).reverse.dropLast ++
        (chainFold (hullSorted points).reverse).reverse.dropLast := by
  unfold convex_hull
  rw [if_neg (by omega)]
  rfl

/-- Unfolding of `convex_hull` in the trivial case. -/
theorem convex_hull_eq_of_le_one {points : List Point}
    (h : points.dedup.length ≤ 1) :
    convex_hull points = points.dedup := by
  unfold convex_hull
  rw [if_pos h]

/-! ### Gluing strict-left-turn lists -/

theorem convex3_tail {x : Point} {l : List Point} (h : Convex3 (x :: l)) :
    Convex3 l := by
  match l with
  | [] => trivial
  | [_] => trivial
  | b :: c :: rest => exact h.2

theorem convex3_cons1 {x : Point} {m : List Point} (hm : Convex3 m)
    (hhead : ∀ y z m', m = y :: z :: m' → 0 < direction x y z) :
    Convex3 (x :: m) := by
  match m with
  | [] => trivial
  | [_] => trivial
  | y :: z :: m' => exact ⟨hhead y z m' rfl, hm⟩

/-- Gluing two strict-left-turn lists, given the two boundary triples. -/
theorem convex3_append :
    ∀ (l1 l2 : List Point), Convex3 l1 → Convex3 l2 →
      (∀ pre x y, l1 = pre ++ [x, y] → ∀ z l2', l2 = z :: l2' →
        0 < direction x y z) →
      (∀ pre x, l1 = pre ++ [x] → ∀ z w l2', l2 = z :: w :: l2' →
        0 < direction x z w) →
      Convex3 (l1 ++ l2) := by
  intro l1
  induction l1 with
  | nil =>
    intro l2 _ h2 _ _
    simpa using h2
  | cons x1 tl ih =>
    intro l2 h1 h2 hx hy
    rw [List.cons_append]
    apply convex3_cons1
    · apply ih l2 (convex3_tail h1) h2
      · intro pre x y hdec z l2' hz
        exact hx (x1 :: pre) x y (by rw [hdec, List.cons_append]) z l2' hz
      · intro pre x hdec z w l2' hz
        exact hy (x1 :: pre) x (by rw [hdec, List.cons_append]) z w l2' hz
    · intro y z m' hdec
      cases tl with
      | nil =>
        simp only [List.nil_append] at hdec
        exact hy [] x1 rfl y z m' hdec
      | cons y0 tl' =>
        cases tl' with
        | nil =>
          simp only [List.cons_append, List.nil_append, List.cons.injEq] at hdec
          obtain ⟨rfl, hdec2⟩ := hdec
          exact hx [] x1 y0 rfl z m' hdec2
        | cons y1 tl'' =>
          simp only [List.cons_append, List.cons.injEq] at hdec
          obtain ⟨rfl, rfl, _⟩ := hdec
          exact h1.1

/-- The forward reading of a reversed convex chain has strict left turns. -/
theorem rconvex_reverse :
    ∀ (acc : List Point), RConvex acc → Convex3 acc.reverse := by
  intro acc
  induction acc with
  | nil => intro _; trivial
  | cons c tl ih =>
    intro h
    cases tl with
    | nil => trivial
    | cons b tl2 =>
      cases tl2 with
      | nil => trivial
      | cons a t =>
        have hrec : Convex3 (b :: a :: t).reverse := ih h.2
        have hshape : (c :: b :: a :: t).reverse =
            (b :: a :: t).reverse ++ [c] := by simp
        rw [hshape]
        have hshape2 : (b :: a :: t).reverse = t.reverse ++ [a, b] := by simp
        refine convex3_append ((b :: a :: t).reverse) [c] hrec (by trivial)
          ?_ ?_
        · intro pre x y hdec z l2' hz
          rw [hshape2] at hdec
          obtain ⟨hpre, hxy⟩ := List.append_inj' hdec (by simp)
          simp only [List.cons.injEq, and_true] at hxy
          obtain ⟨rfl, rfl⟩ := hxy
          simp only [List.cons.injEq] at hz
          obtain ⟨rfl, _⟩ := hz
          exact h.1
        · intro pre x hdec z w l2' hz
          simp at hz

/-- Central reflection preserves the convexity of a reversed chain. -/
theorem rconvex_map_negP :
    ∀ (acc : List Point), RConvex acc → RConvex (acc.map negP) := by
  intro acc
  induction acc with
  | nil => intro _; trivial
  | cons c tl ih =>
    intro h
    cases tl with
    | nil => trivial
    | cons b tl2 =>
      cases tl2 with
      | nil => trivial
      | cons a t =>
        refine ⟨?_, ih h.2⟩
        rw [direction_negP]
        exact h.1

/-! ### The two sweeps of `convex_hull` -/

/-- The lower sweep result (chain in reverse). -/
def lowR (points : List Point) : List Point :=
  chainFold (hullSorted points)

/-- The upper sweep result (chain in reverse). -/
def upR (points : List Point) : List Point :=
  chainFold (hullSorted points).reverse

theorem hullSorted_ne_nil {points : List Point}
    (h2 : 2 ≤ points.dedup.length) : hullSorted points ≠ [] := by
  intro h
  have hl := hullSorted_length points
  rw [h] at hl
  simp only [List.length_nil] at hl
  omega

theorem inv_of_sorted {s : List Point} (hs : List.Pairwise lexLt s)
    (hne : s ≠ []) : Inv s (chainFold s) := by
  cases s with
  | nil => exact absurd rfl hne
  | cons x l => exact chainFold_inv x l hs

theorem lowR_inv {points : List Point} (h2 : 2 ≤ points.dedup.length) :
    Inv (hullSorted points) (lowR points) :=
  inv_of_sorted (hullSorted_sorted points) (hullSorted_ne_nil h2)

theorem sigma_sorted (points : List Point) :
    List.Pairwise lexLt ((hullSorted points).reverse.map negP) := by
  rw [List.pairwise_map, List.pairwise_reverse]
  exact (hullSorted_sorted points).imp (fun h => lexLt_negP.mpr h)

theorem upR_eq_map (points : List Point) :
    upR points =
      (chainFold ((hullSorted points).reverse.map negP)).map negP := by
  rw [← chainFold_negP, map_negP_negP]
  rfl

theorem sigma_ne_nil {points : List Point} (h2 : 2 ≤ points.dedup.length) :
    (hullSorted points).reverse.map negP ≠ [] := by
  simp only [ne_eq, List.map_eq_nil_iff, List.reverse_eq_nil_iff]
  exact hullSorted_ne_nil h2

theorem upR_inv {points : List Point} (h2 : 2 ≤ points.dedup.length) :
    Inv ((hullSorted points).reverse.map negP)
      (chainFold ((hullSorted points).reverse.map negP)) :=
  inv_of_sorted (sigma_sorted points) (sigma_ne_nil h2)

theorem mem_sigma {points : List Point} {q : Point} :
    negP q ∈ (hullSorted points).reverse.map negP ↔ q ∈ hullSorted points := by
  rw [List.mem_map]
  constructor
  · rintro ⟨a, ha, haq⟩
    have : a = q := by
      have := congrArg negP haq
      rwa [negP_negP, negP_negP] at this
    subst this
    exact List.mem_reverse.mp ha
  · intro hq
    exact ⟨q, List.mem_reverse.mpr hq, rfl⟩

theorem upR_supports {points : List Point} (h2 : 2 ≤ points.dedup.length) :
    ∀ q ∈ hullSorted points, Supports (upR points) q := by
  intro q hq
  have h0 := (upR_inv h2).supp (negP q) (mem_sigma.mpr hq)
  rw [upR_eq_map, Supports]
  refine (List.chain'_map negP).mpr (h0.imp ?_)
  intro a b hab
  have he : direction (negP b) (negP a) q = direction b a (negP q) := by
    simp only [direction, negP]
    ring
  rw [he]
  exact hab

theorem upR_mem {points : List Point} (h2 : 2 ≤ points.dedup.length) :
    ∀ x ∈ upR points, x ∈ hullSorted points := by
  intro x hx
  rw [upR_eq_map, List.mem_map] at hx
  obtain ⟨a, ha, hax⟩ := hx
  have ha' := (upR_inv h2).mem a ha
  rw [List.mem_map] at ha'
  obtain ⟨z, hz, hza⟩ := ha'
  have : x = z := by
    rw [← hax, ← hza, negP_negP]
  subst this
  exact List.mem_reverse.mp hz

theorem upR_sorted_asc {points : List Point} (h2 : 2 ≤ points.dedup.length) :
    List.Chain' (fun x y => lexLt x y) (upR points) := by
  have h0 := (upR_inv h2).sorted
  rw [upR_eq_map]
  exact (List.chain'_map negP).mpr (h0.imp (fun a b hab => lexLt_negP.mpr hab))

theorem upR_rconvex {points : List Point} (h2 : 2 ≤ points.dedup.length) :
    RConvex (upR points) := by
  rw [upR_eq_map]
  exact rconvex_map_negP _ (upR_inv h2).convex

theorem upR_head? {points : List Point} (h2 : 2 ≤ points.dedup.length) :
    (upR points).head? = (hullSorted points).head? := by
  rw [upR_eq_map, List.head?_map, (upR_inv h2).head_last, List.getLast?_map,
    List.getLast?_reverse, Option.map_map]
  cases hv : (hullSorted points).head? with
  | none => rfl
  | some v => simp [negP_negP]

theorem upR_getLast? {points : List Point} (h2 : 2 ≤ points.dedup.length) :
    (upR points).getLast? = (hullSorted points).getLast? := by
  rw [upR_eq_map, List.getLast?_map, (upR_inv h2).last_first, List.head?_map,
    List.head?_reverse, Option.map_map]
  cases hv : (hullSorted points).getLast? with
  | none => rfl
  | some v => simp [negP_negP]

/-! ### Extremes of the sorted list and chain endpoints -/

theorem sorted_head_min {s : List Point} (hs : List.Pairwise lexLt s) :
    ∀ z, s.head? = some z → ∀ q ∈ s, lexLE z q := by
  intro z hz q hq
  cases s with
  | nil => simp at hz
  | cons x l =>
    simp only [List.head?_cons, Option.some.injEq] at hz
    subst hz
    rcases List.mem_cons.mp hq with rfl | hq'
    · exact lexLE_refl q
    · exact lexLt_le ((List.pairwise_cons.mp hs).1 q hq')

theorem sorted_getLast_max {s : List Point} (hs : List.Pairwise lexLt s) :
    ∀ z, s.getLast? = some z → ∀ q ∈ s, lexLE q z := by
  intro z hz q hq
  have hs' : List.Pairwise (fun a b => lexLt b a) s.reverse :=
    List.pairwise_reverse.mpr hs
  have hz' : s.reverse.head? = some z := by rwa [List.head?_reverse]
  have hq' : q ∈ s.reverse := List.mem_reverse.mpr hq
  cases hrev : s.reverse with
  | nil => rw [hrev] at hz'; simp at hz'
  | cons w l' =>
    rw [hrev] at hz' hq' hs'
    simp only [List.head?_cons, Option.some.injEq] at hz'
    subst hz'
    rcases List.mem_cons.mp hq' with rfl | hq''
    · exact lexLE_refl q
    · exact lexLt_le ((List.pairwise_cons.mp hs').1 q hq'')

theorem sorted_head_lt_getLast {s : List Point} (hs : List.Pairwise lexLt s)
    (h2 : 2 ≤ s.length) :
    ∀ a b, s.head? = some a → s.getLast? = some b → lexLt a b := by
  intro a b ha hb
  cases s with
  | nil => simp at ha
  | cons x l =>
    cases l with
    | nil => simp at h2
    | cons y l' =>
      simp only [List.head?_cons, Option.some.injEq] at ha
      subst ha
      have hb' : b ∈ y :: l' := by
        rw [List.getLast?_cons_cons] at hb
        exact List.mem_of_mem_getLast? hb
      exact (List.pairwise_cons.mp hs).1 b hb'

theorem two_le_length_of_head_ne_last {l : List Point} {a b : Point}
    (ha : l.head? = some a) (hb : l.getLast? = some b) (hne : a ≠ b) :
    2 ≤ l.length := by
  cases l with
  | nil => simp at ha
  | cons x tl =>
    cases tl with
    | nil =>
      simp only [List.head?_cons, Option.some.injEq] at ha
      simp only [List.getLast?_singleton, Option.some.injEq] at hb
      subst ha
      subst hb
      exact absurd rfl hne
    | cons y tl' => simp

theorem lowR_head? {points : List Point} (h2 : 2 ≤ points.dedup.length) :
    (lowR points).head? = (hullSorted points).getLast? :=
  (lowR_inv h2).head_last

theorem lowR_getLast? {points : List Point} (h2 : 2 ≤ points.dedup.length) :
    (lowR points).getLast? = (hullSorted points).head? :=
  (lowR_inv h2).last_first

theorem hullSorted_two_le {points : List Point}
    (h2 : 2 ≤ points.dedup.length) : 2 ≤ (hullSorted points).length := by
  rw [hullSorted_length]
  exact h2

/-- The two extreme points of the working list. -/
theorem hullSorted_extremes {points : List Point}
    (h2 : 2 ≤ points.dedup.length) :
    ∃ A B, (hullSorted points).head? = some A ∧
      (hullSorted points).getLast? = some B ∧ lexLt A B := by
  cases hseq : hullSorted points with
  | nil => exact absurd hseq (hullSorted_ne_nil h2)
  | cons x l =>
    have hlen := hullSorted_two_le h2
    rw [hseq] at hlen
    cases l with
    | nil => simp at hlen
    | cons y l' =>
      refine ⟨x, (y :: l').getLast ?_, rfl, ?_, ?_⟩
      · simp
      · rw [List.getLast?_cons_cons, List.getLast?_eq_getLast]
      · have hsorted := hullSorted_sorted points
        rw [hseq] at hsorted
        apply (List.pairwise_cons.mp hsorted).1
        exact List.getLast_mem _

theorem lowR_two_le {points : List Point} (h2 : 2 ≤ points.dedup.length) :
    2 ≤ (lowR points).length := by
  obtain ⟨A, B, hA, hB, hAB⟩ := hullSorted_extremes h2
  refine @two_le_length_of_head_ne_last (lowR points) B A ?_ ?_ ?_
  · rw [lowR_head? h2, hB]
  · rw [lowR_getLast? h2, hA]
  · intro h
    subst h
    exact lexLt_irrefl _ hAB

theorem upR_two_le {points : List Point} (h2 : 2 ≤ points.dedup.length) :
    2 ≤ (upR points).length := by
  obtain ⟨A, B, hA, hB, hAB⟩ := hullSorted_extremes h2
  refine @two_le_length_of_head_ne_last (upR points) A B ?_ ?_ ?_
  · rw [upR_head? h2, hA]
  · rw [upR_getLast? h2, hB]
  · intro h
    subst h
    exact lexLt_irrefl _ hAB

/-- Restatement of the hull in terms of the two sweeps. -/
theorem convex_hull_eq' {points : List Point}
    (h2 : 2 ≤ points.dedup.length) :
    convex_hull points =
      (lowR points).reverse.dropLast ++ (upR points).reverse.dropLast :=
  convex_hull_eq_of_two_le h2

theorem mem_dropLast_of_ne_getLast {l : List Point} {x g : Point}
    (hx : x ∈ l) (hg : l.getLast? = some g) (hne : x ≠ g) :
    x ∈ l.dropLast := by
  have hdec := List.dropLast_append_getLast? g hg
  rw [← hdec] at hx
  rcases List.mem_append.mp hx with h | h
  · exact h
  · rw [List.mem_singleton] at h
    exact absurd h hne

/-- Membership in the hull output equals membership in either sweep. -/
theorem mem_hull_iff {points : List Point} (h2 : 2 ≤ points.dedup.length)
    {x : Point} :
    x ∈ convex_hull points ↔ x ∈ lowR points ∨ x ∈ upR points := by
  obtain ⟨A, B, hA, hB, hAB⟩ := hullSorted_extremes h2
  rw [convex_hull_eq' h2]
  constructor
  · intro hx
    rcases List.mem_append.mp hx with h | h
    · left
      have := (List.dropLast_sublist _).mem h
      rwa [List.mem_reverse] at this
    · right
      have := (List.dropLast_sublist _).mem h
      rwa [List.mem_reverse] at this
  · intro hx
    apply List.mem_append.mpr
    rcases hx with hx | hx
    · by_cases hxB : x = B
      · right
        subst hxB
        have hxU : x ∈ upR points := by
          apply List.mem_of_mem_getLast?
          rw [upR_getLast? h2, hB]
          rfl
        apply mem_dropLast_of_ne_getLast (List.mem_reverse.mpr hxU)
        · rw [List.getLast?_reverse, upR_head? h2, hA]
        · intro h
          subst h
          exact lexLt_irrefl x hAB
      · left
        apply mem_dropLast_of_ne_getLast (List.mem_reverse.mpr hx)
        · rw [List.getLast?_reverse, lowR_head? h2, hB]
        · exact hxB
    · by_cases hxA : x = A
      · left
        subst hxA
        have hxL : x ∈ lowR points := by
          apply List.mem_of_mem_getLast?
          rw [lowR_getLast? h2, hA]
          rfl
        apply mem_dropLast_of_ne_getLast (List.mem_reverse.mpr hxL)
        · rw [List.getLast?_reverse, lowR_head? h2, hB]
        · intro h
          subst h
          exact lexLt_irrefl x hAB
      · right
        apply mem_dropLast_of_ne_getLast (List.mem_reverse.mpr hx)
        · rw [List.getLast?_reverse, upR_head? h2, hA]
        · exact hxA

/-! ### Order-only consequences -/

instance : IsAntisymm Point lexLE :=
  ⟨fun _ _ h₁ h₂ => lexLE_antisymm h₁ h₂⟩

/-- `convex_hull` depends only on the set of input coordinates. -/
theorem convex_hull_ext {l₁ l₂ : List Point}
    (hm : ∀ p, p ∈ l₁ ↔ p ∈ l₂) : convex_hull l₁ = convex_hull l₂ := by
  have hperm : List.Perm l₁.dedup l₂.dedup := by
    rw [List.perm_ext_iff_of_nodup (List.nodup_dedup l₁) (List.nodup_dedup l₂)]
    intro a
    rw [List.mem_dedup, List.mem_dedup]
    exact hm a
  have hlen : l₁.dedup.length = l₂.dedup.length := hperm.length_eq
  by_cases hsmall : l₁.dedup.length ≤ 1
  · rw [convex_hull_eq_of_le_one hsmall,
      convex_hull_eq_of_le_one (by omega)]
    interval_cases h : l₁.dedup.length
    · rw [List.length_eq_zero] at h
      rw [h]
      have h2 : l₂.dedup.length = 0 := by omega
      rw [List.length_eq_zero] at h2
      rw [h2]
    · rw [List.length_eq_one] at h
      obtain ⟨a, ha⟩ := h
      rw [ha] at hperm
      rw [ha]
      exact (List.perm_singleton.mp hperm.symm).symm
  · have hsorteq : hullSorted l₁ = hullSorted l₂ := by
      refine List.eq_of_perm_of_sorted ?_
        (sortPoints_sorted_le l₁.dedup) (sortPoints_sorted_le l₂.dedup)
      exact ((sortPoints_perm l₁.dedup).trans hperm).trans
        (sortPoints_perm l₂.dedup).symm
    rw [convex_hull_eq_of_two_le (by omega),
      convex_hull_eq_of_two_le (by omega), hsorteq]

/-! ### Fully collinear inputs -/

/-- On a fully collinear working set the sweep collapses to the two
endpoints. -/
theorem foldl_collinear (x : Point) :
    ∀ (l : List Point) (b : Point),
      (∀ u ∈ b :: l, ∀ v ∈ b :: l, direction x u v = 0) →
      l.foldl chainPush [b, x] = [(b :: l).getLast (List.cons_ne_nil b l), x] := by
  intro l
  induction l with
  | nil =>
    intro b _
    simp
  | cons p l' ih =>
    intro b hcol
    have hstep : chainPush [b, x] p = [p, x] := by
      have h0 : direction x b p = 0 :=
        hcol b (by simp) p (by simp)
      simp [chainPush, h0]
    rw [List.foldl_cons, hstep]
    rw [ih p (fun u hu v hv =>
      hcol u (List.mem_cons_of_mem b hu) v (List.mem_cons_of_mem b hv))]
    simp only [List.cons.injEq, and_true]
    rw [List.getLast_cons (List.cons_ne_nil p l')]

theorem chainFold_cons_cons (x y : Point) (l : List Point) :
    chainFold (x :: y :: l) = l.foldl chainPush [y, x] := by
  simp [chainFold, List.foldl_cons, chainPush]

/-- On fully collinear input the hull collapses to the two extremes. -/
theorem convex_hull_collinear {points : List Point}
    (h2 : 2 ≤ points.dedup.length)
    (hcol : ∀ p ∈ points, ∀ q ∈ points, ∀ r ∈ points, direction p q r = 0) :
    ∃ A B, convex_hull points = [A, B] ∧
      (hullSorted points).head? = some A ∧
      (hullSorted points).getLast? = some B := by
  obtain ⟨A, B, hA, hB, hAB⟩ := hullSorted_extremes h2
  refine ⟨A, B, ?_, hA, hB⟩
  have hmem : ∀ u ∈ hullSorted points, u ∈ points :=
    fun u hu => mem_hullSorted.mp hu
  have hcolS : ∀ p ∈ hullSorted points, ∀ q ∈ hullSorted points,
      ∀ r ∈ hullSorted points, direction p q r = 0 :=
    fun p hp q hq r hr => hcol p (hmem p hp) q (hmem q hq) r (hmem r hr)
  rw [convex_hull_eq' h2]
  have hlow : lowR points = [B, A] := by
    cases hseq : hullSorted points with
    | nil => exact absurd hseq (hullSorted_ne_nil h2)
    | cons x tl =>
      cases tl with
      | nil =>
        have := hullSorted_two_le h2
        rw [hseq] at this
        simp at this
      | cons y l =>
        have hx : x = A := by
          rw [hseq] at hA
          simp only [List.head?_cons, Option.some.injEq] at hA
          exact hA
        have hfold : lowR points = [(y :: l).getLast (by simp), x] := by
          rw [lowR, hseq, chainFold_cons_cons]
          apply foldl_collinear
          intro u hu v hv
          apply hcolS x (by rw [hseq]; simp) u
            (by rw [hseq]; exact List.mem_cons_of_mem x hu) v
            (by rw [hseq]; exact List.mem_cons_of_mem x hv)
        have hlastB : (y :: l).getLast (by simp) = B := by
          rw [hseq, List.getLast?_cons_cons,
            List.getLast?_eq_getLast (y :: l) (by simp)] at hB
          simp only [Option.some.injEq] at hB
          exact hB
        rw [hfold, hlastB, hx]
  have hup : upR points = [A, B] := by
    cases hseq : (hullSorted points).reverse with
    | nil =>
      exfalso
      apply hullSorted_ne_nil h2
      rwa [← List.reverse_eq_nil_iff]
    | cons x tl =>
      cases tl with
      | nil =>
        have := hullSorted_two_le h2
        rw [← List.length_reverse, hseq] at this
        simp at this
      | cons y l =>
        have hx : x = B := by
          have : (hullSorted points).reverse.head? = some B := by
            rw [List.head?_reverse]
            exact hB
          rw [hseq] at this
          simp only [List.head?_cons, Option.some.injEq] at this
          exact this
        have hfold : upR points = [(y :: l).getLast (by simp), x] := by
          rw [upR, hseq, chainFold_cons_cons]
          apply foldl_collinear
          intro u hu v hv
          have hmemrev : ∀ w, w ∈ x :: y :: l → w ∈ hullSorted points := by
            intro w hw
            rw [← List.mem_reverse, hseq]
            exact hw
          exact hcolS x (hmemrev x (by simp)) u
            (hmemrev u (List.mem_cons_of_mem x hu)) v
            (hmemrev v (List.mem_cons_of_mem x hv))
        have hlastA : (y :: l).getLast (by simp) = A := by
          have : (hullSorted points).reverse.getLast? = some A := by
            rw [List.getLast?_reverse]
            exact hA
          rw [hseq, List.getLast?_cons_cons,
            List.getLast?_eq_getLast (y :: l) (by simp)] at this
          simp only [Option.some.injEq] at this
          exact this
        rw [hfold, hlastA, hx]
  rw [hlow, hup]
  simp

/-! ### Separation of the two chains -/

theorem mem_interior_decomp :
    ∀ (l : List Point) (v : Point), v ∈ l → l.head? ≠ some v →
      l.getLast? ≠ some v →
      ∃ pre x y suf, l = pre ++ x :: v :: y :: suf := by
  intro l
  induction l with
  | nil => intro v hv _ _; simp at hv
  | cons a tl ih =>
    intro v hv hhead hlast
    have hva : v ≠ a := by
      intro h
      subst h
      exact hhead rfl
    have hvtl : v ∈ tl := by
      rcases List.mem_cons.mp hv with h | h
      · exact absurd h hva
      · exact h
    cases tl with
    | nil => simp at hvtl
    | cons b tl' =>
      by_cases hvb : v = b
      · subst hvb
        cases tl' with
        | nil =>
          exfalso
          apply hlast
          simp
        | cons c tl'' =>
          exact ⟨[], a, c, tl'', rfl⟩
      · have hvtl' : v ∈ b :: tl' := hvtl
        have hh : (b :: tl').head? ≠ some v := by
          simp only [List.head?_cons, ne_eq, Option.some.injEq]
          intro h
          exact hvb h.symm
        have hl : (b :: tl').getLast? ≠ some v := by
          rwa [List.getLast?_cons_cons] at hlast
        obtain ⟨pre, x, y, suf, hdec⟩ := ih v hvtl' hh hl
        exact ⟨a :: pre, x, y, suf, by rw [List.cons_append, ← hdec]⟩

theorem rconvex_of_decomp :
    ∀ (pre l : List Point) (x v y : Point) (suf : List Point),
      RConvex l → l = pre ++ x :: v :: y :: suf → 0 < direction y v x := by
  intro pre
  induction pre with
  | nil =>
    intro l x v y suf hc hdec
    rw [List.nil_append] at hdec
    subst hdec
    exact hc.1
  | cons p pre' ih =>
    intro l x v y suf hc hdec
    subst hdec
    exact ih _ x v y suf (rconvex_tail hc) rfl

theorem asc_of_decomp {l pre post : List Point} {x y : Point}
    (h : List.Chain' (fun s t => lexLt s t) l)
    (hd : l = pre ++ x :: y :: post) : lexLt x y :=
  @chain'_of_decomp (fun s t => lexLt s t) l pre post x y h hd

/-- An interior vertex of the lower chain is not an upper-chain vertex. -/
theorem sep_lower_upper {points : List Point} (h2 : 2 ≤ points.dedup.length)
    {v A B : Point}
    (hA : (hullSorted points).head? = some A)
    (hB : (hullSorted points).getLast? = some B)
    (hvL : v ∈ lowR points) (hvU : v ∈ upR points) : v = A ∨ v = B := by
  by_contra hcon
  push_neg at hcon
  obtain ⟨hvA, hvB⟩ := hcon
  -- interior decomposition in the lower chain
  obtain ⟨preL, wL, yL, sufL, hdecL⟩ :=
    mem_interior_decomp (lowR points) v hvL
      (by rw [lowR_head? h2, hB]; simp only [ne_eq, Option.some.injEq]
          intro h; exact hvB h.symm)
      (by rw [lowR_getLast? h2, hA]; simp only [ne_eq, Option.some.injEq]
          intro h; exact hvA h.symm)
  -- interior decomposition in the upper chain
  obtain ⟨preU, rU, tU, sufU, hdecU⟩ :=
    mem_interior_decomp (upR points) v hvU
      (by rw [upR_head? h2, hA]; simp only [ne_eq, Option.some.injEq]
          intro h; exact hvA h.symm)
      (by rw [upR_getLast? h2, hB]; simp only [ne_eq, Option.some.injEq]
          intro h; exact hvB h.symm)
  have hinvL := lowR_inv h2
  -- memberships in the working set
  have hwLmem : wL ∈ hullSorted points := by
    apply hinvL.mem
    rw [hdecL]
    simp
  have hrUmem : rU ∈ hullSorted points := by
    apply upR_mem h2
    rw [hdecU]
    simp
  -- order facts
  have hdecU' : upR points = (preU ++ [rU]) ++ v :: tU :: sufU := by
    rw [hdecU]
    simp
  have hvwL : lexLt v wL := rsorted_of_decomp hinvL.sorted hdecL
  have hrUv : lexLt rU v := asc_of_decomp (upR_sorted_asc h2) hdecU
  have hvtU : lexLt v tU := asc_of_decomp (upR_sorted_asc h2) hdecU'
  -- the three vectors
  have hfb : Fwd (vsub wL v) := lexLt_iff_fwd.mp hvwL
  have hfg : Fwd (vsub tU v) := lexLt_iff_fwd.mp hvtU
  have hfd : Fwd (vsub v rU) := lexLt_iff_fwd.mp hrUv
  -- upper chain strict turn at v
  have hturn : 0 < direction tU v rU :=
    rconvex_of_decomp preU (upR points) rU v tU sufU (upR_rconvex h2) hdecU
  have h1 : 0 < cross (vsub tU v) (vsub v rU) := by
    have hi : direction tU v rU = cross (vsub tU v) (vsub v rU) := by
      simp only [direction, cross, vsub]; ring
    rwa [hi] at hturn
  -- lower edge (v → wL) supports rU
  have hsupL : 0 ≤ direction v wL rU :=
    supports_of_decomp (hinvL.supp rU hrUmem) hdecL
  have h2' : 0 ≤ cross (vsub v rU) (vsub wL v) := by
    have hi : direction v wL rU = cross (vsub v rU) (vsub wL v) := by
      simp only [direction, cross, vsub]; ring
    rwa [hi] at hsupL
  -- upper edge (tU → v) supports wL
  have hsupU : 0 ≤ direction tU v wL :=
    supports_of_decomp (upR_supports h2 wL hwLmem) hdecU'
  have h3 : 0 ≤ - cross (vsub tU v) (vsub wL v) := by
    have hi : direction tU v wL = - cross (vsub tU v) (vsub wL v) := by
      simp only [direction, cross, vsub]; ring
    rwa [hi] at hsupU
  have hpos := cross_trans_lt_left hfg hfd hfb h1 h2'
  linarith

/-! ### Helpers for the corner turns -/

/-- Strict transfer across parallel forward vectors. -/
theorem cross_parallel_pos {b b' z : Int × Int} (hb : Fwd b) (hb' : Fwd b')
    (hpar : cross b b' = 0) (h : 0 < cross b z) : 0 < cross b' z := by
  have key1 : cross b z * b'.1 = cross b' z * b.1 + z.1 * cross b b' := by
    simp only [cross]; ring
  have key2 : cross b z * b'.2 = cross b' z * b.2 + z.2 * cross b b' := by
    simp only [cross]; ring
  rw [hpar, mul_zero, add_zero] at key1 key2
  have hpar' : b.1 * b'.2 = b.2 * b'.1 := by
    have hd : cross b b' = b.1 * b'.2 - b.2 * b'.1 := rfl
    linarith
  rcases hb with hb1 | ⟨hb1, hb2⟩
  · have hb'1 : 0 < b'.1 := by
      rcases hb' with h' | ⟨h'1, h'2⟩
      · exact h'
      · exfalso
        rw [h'1, mul_zero] at hpar'
        rcases mul_eq_zero.mp hpar' with h0 | h0 <;> omega
    nlinarith
  · have hb'1 : b'.1 = 0 := by
      rw [hb1, zero_mul] at hpar'
      rcases mul_eq_zero.mp hpar'.symm with h0 | h0 <;> omega
    have hb'2 : 0 < b'.2 := by
      rcases hb' with h' | ⟨h'1, h'2⟩ <;> omega
    nlinarith

theorem vsub_ne_zero {p q : Point} (h : p ≠ q) : vsub p q ≠ 0 := by
  intro h0
  apply h
  simp only [vsub, Prod.mk_eq_zero] at h0
  obtain ⟨h1', h2'⟩ := h0
  cases p
  cases q
  simp only [Point.mk.injEq]
  simp only at h1' h2'
  omega

theorem desc_head_gt {x : Point} {l : List Point}
    (h : List.Chain' (fun b a => lexLt a b) (x :: l)) :
    ∀ y ∈ l, lexLt y x := by
  induction l generalizing x with
  | nil => intro y hy; simp at hy
  | cons z l' ih =>
    intro y hy
    have hzx : lexLt z x := (List.chain'_cons.mp h).1
    rcases List.mem_cons.mp hy with rfl | hy'
    · exact hzx
    · exact lexLt_trans (ih (List.chain'_cons.mp h).2 y hy') hzx

theorem asc_head_lt {x : Point} {l : List Point}
    (h : List.Chain' (fun a b => lexLt a b) (x :: l)) :
    ∀ y ∈ l, lexLt x y := by
  induction l generalizing x with
  | nil => intro y hy; simp at hy
  | cons z l' ih =>
    intro y hy
    have hxz : lexLt x z := (List.chain'_cons.mp h).1
    rcases List.mem_cons.mp hy with rfl | hy'
    · exact hxz
    · exact lexLt_trans hxz (ih (List.chain'_cons.mp h).2 y hy')

theorem desc_getLast_eq_head {x : Point} {l : List Point}
    (h : List.Chain' (fun b a => lexLt a b) (x :: l))
    (hl : (x :: l).getLast? = some x) : l = [] := by
  cases l with
  | nil => rfl
  | cons y l' =>
    exfalso
    rw [List.getLast?_cons_cons] at hl
    have hmem : x ∈ y :: l' := List.mem_of_mem_getLast? hl
    exact lexLt_irrefl x (desc_head_gt h x hmem)

/-- The corner of the hull at the extreme `B`: the last lower edge into
`B` and the first upper edge out of `B` make a strict left turn, provided
the hull has at least three vertices. -/
theorem corner_lemma (s L U : List Point) (A B w u₂ : Point)
    (restL preU2 : List Point)
    (hLdec : L = B :: w :: restL)
    (hUdec : U = preU2 ++ [u₂, B])
    (hLs : RSorted L) (hLc : RConvex L)
    (hLsup : ∀ q ∈ s, Supports L q) (hLlast : L.getLast? = some A)
    (hLmem : ∀ x ∈ L, x ∈ s)
    (hUs : List.Chain' (fun a b => lexLt a b) U) (hUc : RConvex U)
    (hUsup : ∀ q ∈ s, Supports U q) (hUhead : U.head? = some A)
    (hUmem : ∀ x ∈ U, x ∈ s)
    (hAmin : ∀ q ∈ s, lexLE A q)
    (hsep : ∀ v, v ∈ L → v ∈ U → v = A ∨ v = B)
    (h5 : 5 ≤ L.length + U.length) :
    0 < direction w B u₂ := by
  have hwmem : w ∈ s := hLmem w (by rw [hLdec]; simp)
  have hu₂mem : u₂ ∈ s := hUmem u₂ (by rw [hUdec]; simp)
  have hweak : 0 ≤ direction B u₂ w := supports_of_decomp (hUsup w hwmem) hUdec
  have hweak' : 0 ≤ direction w B u₂ := by
    rw [direction_cyclic]
    exact hweak
  rcases lt_or_eq_of_le hweak' with h | heq
  · exact h
  · exfalso
    have hLdec0 : L = [] ++ B :: w :: restL := by rw [hLdec]; rfl
    have hwB : lexLt w B := rsorted_of_decomp hLs hLdec0
    by_cases hwu : w = u₂
    · -- the two chains would share an interior vertex
      have hwU : w ∈ U := by
        rw [hUdec, hwu]
        simp
      rcases hsep w (by rw [hLdec]; simp) hwU with hwA | hwB'
      · -- w = A forces both chains to have exactly two points
        have hchainL : List.Chain' (fun b a => lexLt a b) (w :: restL) := by
          rw [hLdec] at hLs
          exact (List.chain'_cons.mp hLs).2
        have hrest : restL = [] := by
          apply desc_getLast_eq_head hchainL
          rw [hLdec, List.getLast?_cons_cons] at hLlast
          rw [hLlast, hwA]
        have hpre : preU2 = [] := by
          cases hp : preU2 with
          | nil => rfl
          | cons a0 pre' =>
            exfalso
            have hU' : U = a0 :: (pre' ++ [u₂, B]) := by
              rw [hUdec, hp]
              simp
            have ha0 : a0 = A := by
              rw [hU'] at hUhead
              simpa using hUhead
            rw [hU'] at hUs
            have hlt := asc_head_lt hUs u₂ (by simp)
            rw [ha0, ← hwu, hwA] at hlt
            exact lexLt_irrefl A hlt
        rw [hLdec, hrest, hUdec, hpre] at h5
        simp at h5
      · rw [hwB'] at hwB
        exact lexLt_irrefl B hwB
    · -- distinct collinear points on the corner line
      have hfb : Fwd (vsub B w) := lexLt_iff_fwd.mp hwB
      have hu₂B : lexLt u₂ B := asc_of_decomp hUs hUdec
      have hfe : Fwd (vsub B u₂) := lexLt_iff_fwd.mp hu₂B
      have hpar : cross (vsub B w) (vsub u₂ w) = 0 := by
        have hi : direction w B u₂ = cross (vsub B w) (vsub u₂ w) := rfl
        omega
      have hpar_be : cross (vsub B w) (vsub B u₂) = 0 := by
        rw [vsub_add B w u₂, cross_add_right, cross_self]
        have h2 : cross (vsub B w) (vsub w u₂) =
            - cross (vsub B w) (vsub u₂ w) := by
          rw [vsub_neg w u₂, cross_neg_right]
        rw [h2, hpar]
        ring
      have hm0 : vsub u₂ w ≠ 0 := vsub_ne_zero (fun h => hwu h.symm)
      rcases fwd_or_fwd_neg hm0 with hm | hm
      · -- w strictly left of u₂ on the line
        have hwu₂ : lexLt w u₂ := lexLt_iff_fwd.mpr hm
        cases hp : preU2 with
        | nil =>
          have hU' : U = u₂ :: [B] := by
            rw [hUdec, hp]
            rfl
          have hu₂A : u₂ = A := by
            rw [hU'] at hUhead
            simpa using hUhead
          have hle := hAmin w hwmem
          rw [← hu₂A] at hle
          exact lexLt_irrefl w (lexLt_le_trans hwu₂ hle)
        | cons q0 qrest =>
          rcases List.eq_nil_or_concat (q0 :: qrest) with hnil | ⟨preU3, u₃, hcat⟩
          · simp at hnil
          · have hUdec3 : U = preU3 ++ u₃ :: u₂ :: B :: [] := by
              rw [hUdec, hp, hcat]
              simp [List.concat_eq_append]
            have hturnU : 0 < direction B u₂ u₃ :=
              rconvex_of_decomp preU3 U u₃ u₂ B [] hUc hUdec3
            have hu₃mem : u₃ ∈ s := hUmem u₃ (by rw [hUdec3]; simp)
            have hsupL3 : 0 ≤ direction w B u₃ :=
              supports_of_decomp (hLsup u₃ hu₃mem) hLdec0
            have hbz : 0 ≤ cross (vsub B w) (vsub u₃ u₂) := by
              rw [vsub_add u₃ B u₂, cross_add_right]
              have h1 : 0 ≤ cross (vsub B w) (vsub u₃ B) := by
                have hi : direction w B u₃ = cross (vsub B w) (vsub u₃ B) :=
                  direction_eq_cross_edge w B u₃
                rwa [hi] at hsupL3
              rw [hpar_be]
              linarith
            have hez := cross_parallel_nonneg hfb hfe hpar_be hbz
            have hneg : cross (vsub B u₂) (vsub u₃ u₂) < 0 := by
              have hi : direction B u₂ u₃ =
                  - cross (vsub B u₂) (vsub u₃ u₂) := by
                simp only [direction, cross, vsub]
                ring
              rw [hi] at hturnU
              linarith
            linarith
      · -- u₂ strictly left of w on the line
        have hu₂w : lexLt u₂ w := by
          apply lexLt_iff_fwd.mpr
          rw [vsub_neg w u₂]
          exact hm
        cases hr : restL with
        | nil =>
          have hwA : w = A := by
            rw [hLdec, hr] at hLlast
            simpa using hLlast
          have hle := hAmin u₂ hu₂mem
          rw [← hwA] at hle
          exact lexLt_irrefl u₂ (lexLt_le_trans hu₂w hle)
        | cons w₃ restL' =>
          have hLdec3 : L = B :: w :: w₃ :: restL' := by rw [hLdec, hr]
          have hturnL : 0 < direction w₃ w B := by
            rw [hLdec3] at hLc
            exact hLc.1
          have hw₃mem : w₃ ∈ s := hLmem w₃ (by rw [hLdec3]; simp)
          have hsupU3 : 0 ≤ direction B u₂ w₃ :=
            supports_of_decomp (hUsup w₃ hw₃mem) hUdec
          have hbz : 0 < cross (vsub B w) (vsub w₃ u₂) := by
            rw [vsub_add w₃ w u₂, cross_add_right]
            have h1 : 0 < cross (vsub B w) (vsub w₃ w) := by
              have hi : direction w₃ w B = cross (vsub B w) (vsub w₃ w) := by
                simp only [direction, cross, vsub]
                ring
              rwa [hi] at hturnL
            have h2z : cross (vsub B w) (vsub w u₂) = 0 := by
              rw [vsub_neg w u₂, cross_neg_right, hpar]
              ring
            linarith
          have hez := cross_parallel_pos hfb hfe hpar_be hbz
          have hneg : cross (vsub B u₂) (vsub w₃ u₂) ≤ 0 := by
            have hi : direction B u₂ w₃ =
                - cross (vsub B u₂) (vsub w₃ u₂) := by
              simp only [direction, cross, vsub]
              ring
            rw [hi] at hsupU3
            linarith
          linarith

theorem lexLE_negP {p q : Point} : lexLE (negP q) (negP p) ↔ lexLE p q := by
  simp only [lexLE, negP]
  omega

theorem exists_last_two {l : List Point} (h2 : 2 ≤ l.length) :
    ∃ pre x y, l = pre ++ [x, y] := by
  cases hrev : l.reverse with
  | nil =>
    rw [List.reverse_eq_nil_iff] at hrev
    rw [hrev] at h2
    simp at h2
  | cons y tl =>
    cases tl with
    | nil =>
      have : l = [y] := by
        have := congrArg List.reverse hrev
        simpa using this
      rw [this] at h2
      simp at h2
    | cons x tl' =>
      refine ⟨tl'.reverse, x, y, ?_⟩
      have := congrArg List.reverse hrev
      simpa using this

theorem exists_first_two {l : List Point} (h2 : 2 ≤ l.length) :
    ∃ x y rest, l = x :: y :: rest := by
  cases l with
  | nil => simp at h2
  | cons x tl =>
    cases tl with
    | nil => simp at h2
    | cons y rest => exact ⟨x, y, rest, rfl⟩

theorem supports_map_negP {acc : List Point} {q : Point}
    (h : Supports acc q) : Supports (acc.map negP) (negP q) := by
  refine (List.chain'_map negP).mpr (h.imp ?_)
  intro a b hab
  have he : direction (negP b) (negP a) (negP q) = direction b a q :=
    direction_negP b a q
  rw [he]
  exact hab

theorem rsorted_map_negP_of_asc {U : List Point}
    (h : List.Chain' (fun a b => lexLt a b) U) : RSorted (U.map negP) := by
  refine (List.chain'_map negP).mpr (h.imp ?_)
  intro a b hab
  exact lexLt_negP.mpr hab

theorem asc_map_negP_of_rsorted {L : List Point} (h : RSorted L) :
    List.Chain' (fun a b => lexLt a b) (L.map negP) := by
  refine (List.chain'_map negP).mpr (h.imp ?_)
  intro a b hab
  exact lexLt_negP.mpr hab

/-- The corner of the hull at the extreme `A`, by central symmetry from
`corner_lemma`. -/
theorem corner_lemma_A (s L U : List Point) (A B t l₂ : Point)
    (restU preL2 : List Point)
    (hUdec : U = A :: t :: restU)
    (hLdec : L = preL2 ++ [l₂, A])
    (hLs : RSorted L) (hLc : RConvex L)
    (hLsup : ∀ q ∈ s, Supports L q) (hLhead : L.head? = some B)
    (hLmem : ∀ x ∈ L, x ∈ s)
    (hUs : List.Chain' (fun a b => lexLt a b) U) (hUc : RConvex U)
    (hUsup : ∀ q ∈ s, Supports U q) (hUlast : U.getLast? = some B)
    (hUmem : ∀ x ∈ U, x ∈ s)
    (hBmax : ∀ q ∈ s, lexLE q B)
    (hsep : ∀ v, v ∈ L → v ∈ U → v = A ∨ v = B)
    (h5 : 5 ≤ L.length + U.length) :
    0 < direction t A l₂ := by
  have hmain : 0 < direction (negP t) (negP A) (negP l₂) := by
    apply corner_lemma (s.map negP) (U.map negP) (L.map negP)
      (negP B) (negP A) (negP t) (negP l₂)
      (restU.map negP) (preL2.map negP)
    · rw [hUdec]
      simp
    · rw [hLdec]
      simp
    · exact rsorted_map_negP_of_asc hUs
    · exact rconvex_map_negP U hUc
    · intro q hq
      rw [List.mem_map] at hq
      obtain ⟨q₀, hq₀, rfl⟩ := hq
      exact supports_map_negP (hUsup q₀ hq₀)
    · rw [List.getLast?_map, hUlast]
      rfl
    · intro x hx
      rw [List.mem_map] at hx ⊢
      obtain ⟨x₀, hx₀, rfl⟩ := hx
      exact ⟨x₀, hUmem x₀ hx₀, rfl⟩
    · exact asc_map_negP_of_rsorted hLs
    · exact rconvex_map_negP L hLc
    · intro q hq
      rw [List.mem_map] at hq
      obtain ⟨q₀, hq₀, rfl⟩ := hq
      exact supports_map_negP (hLsup q₀ hq₀)
    · rw [List.head?_map, hLhead]
      rfl
    · intro x hx
      rw [List.mem_map] at hx ⊢
      obtain ⟨x₀, hx₀, rfl⟩ := hx
      exact ⟨x₀, hLmem x₀ hx₀, rfl⟩
    · intro q hq
      rw [List.mem_map] at hq
      obtain ⟨q₀, hq₀, rfl⟩ := hq
      exact lexLE_negP.mpr (hBmax q₀ hq₀)
    · intro v hvU hvL
      rw [List.mem_map] at hvU hvL
      obtain ⟨v₀, hv₀U, rfl⟩ := hvU
      obtain ⟨v₁, hv₁L, hv₁⟩ := hvL
      have hv01 : v₁ = v₀ := by
        have := congrArg negP hv₁
        rwa [negP_negP, negP_negP] at this
      subst hv01
      rcases hsep v₁ hv₁L hv₀U with h | h
      · right
        rw [h]
      · left
        rw [h]
    · simp only [List.length_map]
      omega
  rwa [direction_negP] at hmain

/-- Assembly: the hull polygon built from a lower and an upper chain makes
strict left turns at every cyclically consecutive triple. -/
theorem hull_cyclic_abstract (s L U : List Point) (A B : Point)
    (hLs : RSorted L) (hLc : RConvex L)
    (hLsup : ∀ q ∈ s, Supports L q)
    (hLhead : L.head? = some B) (hLlast : L.getLast? = some A)
    (hLmem : ∀ x ∈ L, x ∈ s) (hL2 : 2 ≤ L.length)
    (hUs : List.Chain' (fun a b => lexLt a b) U) (hUc : RConvex U)
    (hUsup : ∀ q ∈ s, Supports U q)
    (hUhead : U.head? = some A) (hUlast : U.getLast? = some B)
    (hUmem : ∀ x ∈ U, x ∈ s) (hU2 : 2 ≤ U.length)
    (hAmin : ∀ q ∈ s, lexLE A q) (hBmax : ∀ q ∈ s, lexLE q B)
    (hsep : ∀ v, v ∈ L → v ∈ U → v = A ∨ v = B)
    (h5 : 5 ≤ L.length + U.length) :
    Convex3 ((L.reverse.dropLast ++ U.reverse.dropLast) ++
      (L.reverse.dropLast ++ U.reverse.dropLast).take 2) := by
  -- decompositions of the two chains
  obtain ⟨B', w, restL, hLdecB⟩ := exists_first_two hL2
  have hB' : B' = B := by
    have h0 := hLhead
    rw [hLdecB] at h0
    simpa using h0
  rw [hB'] at hLdecB
  obtain ⟨preL2, l₂, A', hLdecA⟩ := exists_last_two hL2
  have hA' : A' = A := by
    have h0 := hLlast
    rw [hLdecA,
      show preL2 ++ [l₂, A'] = (preL2 ++ [l₂]) ++ [A'] from by simp,
      List.getLast?_concat] at h0
    simpa using h0
  rw [hA'] at hLdecA
  obtain ⟨A'', t, restU, hUdecA⟩ := exists_first_two hU2
  have hA'' : A'' = A := by
    have h0 := hUhead
    rw [hUdecA] at h0
    simpa using h0
  rw [hA''] at hUdecA
  obtain ⟨preU2, u₂, B'', hUdecB⟩ := exists_last_two hU2
  have hB'' : B'' = B := by
    have h0 := hUlast
    rw [hUdecB,
      show preU2 ++ [u₂, B''] = (preU2 ++ [u₂]) ++ [B''] from by simp,
      List.getLast?_concat] at h0
    simpa using h0
  rw [hB''] at hUdecB
  -- the two corner turns
  have cornB : 0 < direction w B u₂ :=
    corner_lemma s L U A B w u₂ restL preU2 hLdecB hUdecB hLs hLc hLsup
      hLlast hLmem hUs hUc hUsup hUhead hUmem hAmin hsep h5
  have cornA : 0 < direction t A l₂ :=
    corner_lemma_A s L U A B t l₂ restU preL2 hUdecA hLdecA hLs hLc hLsup
      hLhead hLmem hUs hUc hUsup hUlast hUmem hBmax hsep h5
  -- forward lists
  have hlow_rev : L.reverse = restL.reverse ++ [w, B] := by
    rw [hLdecB]
    simp
  have hlow_rev2 : L.reverse = [A, l₂] ++ preL2.reverse := by
    rw [hLdecA]
    simp
  have hup_rev : U.reverse = [B, u₂] ++ preU2.reverse := by
    rw [hUdecB]
    simp
  have hup_rev2 : U.reverse = restU.reverse ++ [t, A] := by
    rw [hUdecA]
    simp
  have hlowlast : L.reverse.getLast? = some B := by
    rw [List.getLast?_reverse]
    exact hLhead
  have hupplast : U.reverse.getLast? = some A := by
    rw [List.getLast?_reverse]
    exact hUhead
  have hlowdecomp : L.reverse.dropLast ++ [B] = L.reverse :=
    List.dropLast_append_getLast? B (by rw [hlowlast]; rfl)
  have hupdecomp : U.reverse.dropLast ++ [A] = U.reverse :=
    List.dropLast_append_getLast? A (by rw [hupplast]; rfl)
  have hClower : Convex3 L.reverse := rconvex_reverse L hLc
  have hCupper : Convex3 U.reverse := rconvex_reverse U hUc
  -- the key append identity
  have heq1 : (L.reverse.dropLast ++ U.reverse.dropLast) ++ [A] =
      L.reverse ++ (u₂ :: preU2.reverse) := by
    rw [List.append_assoc, hupdecomp, hup_rev, ← hlowdecomp]
    simp
  -- the tail of the hull starts with A, l₂
  have hshape : ∃ hrest,
      L.reverse.dropLast ++ U.reverse.dropLast = A :: l₂ :: hrest := by
    cases hplr : preL2.reverse with
    | nil =>
      have hlower2 : L.reverse = [A, l₂] := by
        rw [hlow_rev2, hplr]
        simp
      have hl₂B : l₂ = B := by
        rw [hlower2] at hlowlast
        simpa using hlowlast
      have hld : L.reverse.dropLast = [A] := by
        rw [hlower2]
        rfl
      have hud : U.reverse.dropLast = B :: (u₂ :: preU2.reverse).dropLast := by
        rw [hup_rev]
        rfl
      refine ⟨(u₂ :: preU2.reverse).dropLast, ?_⟩
      rw [hld, hud, hl₂B]
      rfl
    | cons r rs =>
      have hld : L.reverse.dropLast = A :: l₂ :: (r :: rs).dropLast := by
        rw [hlow_rev2, hplr,
          List.dropLast_append_of_ne_nil [A, l₂] (by simp)]
        rfl
      exact ⟨(r :: rs).dropLast ++ U.reverse.dropLast, by rw [hld]; simp⟩
  obtain ⟨hrest, hshape⟩ := hshape
  -- reduce the cyclic list to a double append
  have htake : (L.reverse.dropLast ++ U.reverse.dropLast).take 2 = [A, l₂] := by
    rw [hshape]
    rfl
  rw [htake, show [A, l₂] = [A] ++ [l₂] from rfl, ← List.append_assoc, heq1]
  -- the glued convexity
  have hCut : Convex3 (u₂ :: preU2.reverse) := by
    apply @convex3_tail B
    rw [show B :: u₂ :: preU2.reverse = [B, u₂] ++ preU2.reverse from rfl,
      ← hup_rev]
    exact hCupper
  have hCLU : Convex3 (L.reverse ++ (u₂ :: preU2.reverse)) := by
    apply convex3_append _ _ hClower hCut
    · intro pre x y hdec z l2' hz
      rw [hlow_rev] at hdec
      have hxy := (List.append_inj' hdec.symm (by simp)).2
      simp only [List.cons.injEq, and_true] at hxy
      simp only [List.cons.injEq] at hz
      rw [hxy.1, hxy.2, ← hz.1]
      exact cornB
    · intro pre x hdec z w'' l2' hz
      have hxB : x = B := by
        have h1 : (pre ++ [x]).getLast? = some x := List.getLast?_concat pre
        rw [← hdec, hlowlast] at h1
        simpa using h1.symm
      have hCup3 : Convex3 (B :: z :: w'' :: l2') := by
        rw [← hz, show B :: u₂ :: preU2.reverse = [B, u₂] ++ preU2.reverse
          from rfl, ← hup_rev]
        exact hCupper
      rw [hxB]
      exact hCup3.1
  refine convex3_append (L.reverse ++ (u₂ :: preU2.reverse)) [l₂] hCLU
    (by trivial) ?_ ?_
  · intro pre x y hdec z l2' hz
    simp only [List.cons.injEq] at hz
    -- identify the last two elements with (t, A)
    have hud2 : U.reverse.dropLast = restU.reverse ++ [t] := by
      rw [hup_rev2,
        List.dropLast_append_of_ne_nil restU.reverse
          (by simp : ([t, A] : List Point) ≠ [])]
      rfl
    have hfull : L.reverse ++ (u₂ :: preU2.reverse) =
        (L.reverse.dropLast ++ restU.reverse) ++ [t, A] := by
      rw [← heq1, hud2]
      simp
    rw [hfull] at hdec
    have hxy := (List.append_inj' hdec.symm (by simp)).2
    simp only [List.cons.injEq, and_true] at hxy
    rw [hxy.1, hxy.2, ← hz.1]
    exact cornA
  · intro pre x hdec z w'' l2' hz
    simp at hz

/-- The hull output is cyclically strictly convex when it has at least
three vertices. -/
theorem hull_cyclic {points : List Point} (h2 : 2 ≤ points.dedup.length)
    (h3 : 3 ≤ (convex_hull points).length) :
    CyclicConvex (convex_hull points) := by
  obtain ⟨A, B, hA, hB, hAB⟩ := hullSorted_extremes h2
  have hinv := lowR_inv h2
  have h5 : 5 ≤ (lowR points).length + (upR points).length := by
    have hL2 := lowR_two_le h2
    have hU2 := upR_two_le h2
    have hlen : (convex_hull points).length =
        (lowR points).length - 1 + ((upR points).length - 1) := by
      rw [convex_hull_eq' h2]
      simp
    omega
  have hres := hull_cyclic_abstract (hullSorted points) (lowR points)
    (upR points) A B hinv.sorted hinv.convex hinv.supp
    (by rw [lowR_head? h2, hB]) (by rw [lowR_getLast? h2, hA]) hinv.mem
    (lowR_two_le h2) (upR_sorted_asc h2) (upR_rconvex h2) (upR_supports h2)
    (by rw [upR_head? h2, hA]) (by rw [upR_getLast? h2, hB]) (upR_mem h2)
    (upR_two_le h2)
    (fun q hq => sorted_head_min (hullSorted_sorted points) A hA q hq)
    (fun q hq => sorted_getLast_max (hullSorted_sorted points) B hB q hq)
    (fun v hvL hvU => sep_lower_upper h2 hA hB hvL hvU) h5
  unfold CyclicConvex
  rw [convex_hull_eq' h2]
  exact hres

/-! ### No duplicates in the output -/

theorem nodup_of_desc :
    ∀ {l : List Point}, List.Chain' (fun b a => lexLt a b) l → l.Nodup := by
  intro l
  induction l with
  | nil => intro _; exact List.nodup_nil
  | cons x tl ih =>
    intro h
    refine List.nodup_cons.mpr ⟨?_, ih (List.Chain'.tail h)⟩
    intro hx
    exact lexLt_irrefl x (desc_head_gt h x hx)

theorem nodup_of_asc :
    ∀ {l : List Point}, List.Chain' (fun a b => lexLt a b) l → l.Nodup := by
  intro l
  induction l with
  | nil => intro _; exact List.nodup_nil
  | cons x tl ih =>
    intro h
    refine List.nodup_cons.mpr ⟨?_, ih (List.Chain'.tail h)⟩
    intro hx
    exact lexLt_irrefl x (asc_head_lt h x hx)

theorem hull_subset {points : List Point} :
    ∀ p ∈ convex_hull points, p ∈ points := by
  intro p hp
  by_cases h2 : 2 ≤ points.dedup.length
  · rcases (mem_hull_iff h2).mp hp with h | h
    · exact mem_hullSorted.mp ((lowR_inv h2).mem p h)
    · exact mem_hullSorted.mp (upR_mem h2 p h)
  · rw [convex_hull_eq_of_le_one (by omega)] at hp
    exact (List.mem_dedup).mp hp

theorem hull_nodup {points : List Point} : (convex_hull points).Nodup := by
  by_cases h2 : 2 ≤ points.dedup.length
  · obtain ⟨A, B, hA, hB, hAB⟩ := hullSorted_extremes h2
    rw [convex_hull_eq' h2]
    have hLnd : (lowR points).reverse.Nodup :=
      List.nodup_reverse.mpr (nodup_of_desc (lowR_inv h2).sorted)
    have hUnd : (upR points).reverse.Nodup :=
      List.nodup_reverse.mpr (nodup_of_asc (upR_sorted_asc h2))
    have hLd : (lowR points).reverse.dropLast.Nodup :=
      hLnd.sublist (List.dropLast_sublist _)
    have hUd : (upR points).reverse.dropLast.Nodup :=
      hUnd.sublist (List.dropLast_sublist _)
    refine hLd.append hUd ?_
    intro x hxL hxU
    have hxL' : x ∈ lowR points := by
      have := (List.dropLast_sublist _).mem hxL
      rwa [List.mem_reverse] at this
    have hxU' : x ∈ upR points := by
      have := (List.dropLast_sublist _).mem hxU
      rwa [List.mem_reverse] at this
    rcases sep_lower_upper h2 hA hB hxL' hxU' with rfl | rfl
    · -- x = A does not survive the upper dropLast
      have hdecU : (upR points).reverse.dropLast ++ [x] =
          (upR points).reverse :=
        List.dropLast_append_getLast? x
          (by rw [List.getLast?_reverse, upR_head? h2, hA]; rfl)
      have : ((upR points).reverse.dropLast ++ [x]).Nodup := by
        rw [hdecU]
        exact hUnd
      rcases List.nodup_append.mp this with ⟨-, -, hdisj⟩
      exact hdisj hxU (by simp)
    · -- x = B does not survive the lower dropLast
      have hdecL : (lowR points).reverse.dropLast ++ [x] =
          (lowR points).reverse :=
        List.dropLast_append_getLast? x
          (by rw [List.getLast?_reverse, lowR_head? h2, hB]; rfl)
      have : ((lowR points).reverse.dropLast ++ [x]).Nodup := by
        rw [hdecL]
        exact hLnd
      rcases List.nodup_append.mp this with ⟨-, -, hdisj⟩
      exact hdisj hxL (by simp)
  · rw [convex_hull_eq_of_le_one (by omega)]
    exact List.nodup_dedup points

theorem dropLast_head? {l : List Point} (h2 : 2 ≤ l.length) :
    l.dropLast.head? = l.head? := by
  cases l with
  | nil => simp at h2
  | cons x tl =>
    cases tl with
    | nil => simp at h2
    | cons y tl' => rfl

/-- The first output point is the lexicographic minimum of the input. -/
theorem hull_head {points : List Point} (h2 : 2 ≤ points.dedup.length) :
    ∃ A, (convex_hull points).head? = some A ∧ A ∈ points ∧
      ∀ q ∈ points, lexLE A q := by
  obtain ⟨A, B, hA, hB, hAB⟩ := hullSorted_extremes h2
  refine ⟨A, ?_, ?_, ?_⟩
  · rw [convex_hull_eq' h2]
    have hlen : 2 ≤ (lowR points).reverse.length := by
      rw [List.length_reverse]
      exact lowR_two_le h2
    have hhd : (lowR points).reverse.dropLast.head? = some A := by
      rw [dropLast_head? hlen, List.head?_reverse, lowR_getLast? h2, hA]
    rw [List.eq_cons_of_mem_head? hhd]
    rfl
  · apply mem_hullSorted.mp
    rw [List.eq_cons_of_mem_head? hA]
    simp
  · intro q hq
    exact sorted_head_min (hullSorted_sorted points) A hA q
      (mem_hullSorted.mpr hq)

/-! ### Containment in the rational convex hull -/

theorem lexLE_x {p q : Point} (h : lexLE p q) : p.x ≤ q.x := by
  rcases h with h | ⟨h, _⟩ <;> omega

theorem nonpos_right_of_mul {a b : Int} (h : a * b ≤ 0) (ha : 0 < a) :
    b ≤ 0 := by
  by_contra hb
  push_neg at hb
  exact absurd h (not_le.mpr (mul_pos ha hb))

theorem nonneg_right_of_mul {a b : Int} (h : 0 ≤ a * b) (ha : 0 < a) :
    0 ≤ b := by
  by_contra hb
  push_neg at hb
  have := mul_pos ha (by omega : 0 < -b)
  nlinarith

/-- A point vertically between two points of a convex set with the same
first coordinate is in the set. -/
theorem convex_vert {S : Set (ℚ × ℚ)} (hS : Convex ℚ S) {u v w : ℚ × ℚ}
    (hu : u ∈ S) (hv : v ∈ S) (h1 : u.1 = w.1) (h2 : v.1 = w.1)
    (h3 : u.2 ≤ w.2) (h4 : w.2 ≤ v.2) : w ∈ S := by
  rcases eq_or_lt_of_le (h3.trans h4) with he | hlt
  · have hw2 : w.2 = u.2 := le_antisymm (he ▸ h4) h3
    have hwu : w = u := Prod.ext_iff.mpr ⟨h1.symm, hw2⟩
    rwa [hwu]
  · set r : ℚ := (w.2 - u.2) / (v.2 - u.2) with hr
    have hd : (0:ℚ) < v.2 - u.2 := by linarith
    have hr0 : 0 ≤ r := div_nonneg (by linarith) hd.le
    have hr1 : r ≤ 1 := (div_le_one hd).mpr (by linarith)
    have hmem := hS hu hv (show (0:ℚ) ≤ 1 - r by linarith) hr0 (by ring)
    have hcan : r * (v.2 - u.2) = w.2 - u.2 := div_mul_cancel₀ _ hd.ne'
    have heq : (1 - r) • u + r • v = w := by
      refine Prod.ext_iff.mpr ⟨?_, ?_⟩
      · simp only [Prod.fst_add, Prod.smul_fst, smul_eq_mul]
        rw [h1, h2]
        ring
      · simp only [Prod.snd_add, Prod.smul_snd, smul_eq_mul]
        linear_combination hcan
    rwa [heq] at hmem

/-- A point weakly left of a rightward edge, with abscissa between the
endpoints, lies weakly above a point of the segment with its abscissa. -/
theorem edge_below {S : Set (ℚ × ℚ)} (hS : Convex ℚ S) {a b q : Point}
    (ha : toQ a ∈ S) (hb : toQ b ∈ S) (hab : a.x < b.x)
    (haq : a.x ≤ q.x) (hqb : q.x ≤ b.x) (hsupp : 0 ≤ direction a b q) :
    ∃ w ∈ S, w.1 = (q.x : ℚ) ∧ w.2 ≤ (q.y : ℚ) := by
  have hD : (0:ℚ) < (b.x:ℚ) - (a.x:ℚ) := by
    have : (a.x:ℚ) < (b.x:ℚ) := by exact_mod_cast hab
    linarith
  set t : ℚ := ((q.x:ℚ) - (a.x:ℚ)) / ((b.x:ℚ) - (a.x:ℚ)) with ht
  have ht0 : 0 ≤ t := by
    refine div_nonneg ?_ hD.le
    have : (a.x:ℚ) ≤ (q.x:ℚ) := by exact_mod_cast haq
    linarith
  have ht1 : t ≤ 1 := by
    rw [ht, div_le_one hD]
    have : (q.x:ℚ) ≤ (b.x:ℚ) := by exact_mod_cast hqb
    linarith
  have key : 0 ≤ ((b.x:ℚ) - (a.x:ℚ)) * ((q.y:ℚ) - (a.y:ℚ)) -
      ((b.y:ℚ) - (a.y:ℚ)) * ((q.x:ℚ) - (a.x:ℚ)) := by
    have h0 := hsupp
    simp only [direction] at h0
    exact_mod_cast h0
  refine ⟨(1 - t) • toQ a + t • toQ b,
    hS ha hb (by linarith) ht0 (by ring), ?_, ?_⟩
  · simp only [toQ, Prod.fst_add, Prod.smul_fst, smul_eq_mul]
    rw [ht]
    field_simp
    ring
  · simp only [toQ, Prod.snd_add, Prod.smul_snd, smul_eq_mul]
    have heq : (q.y:ℚ) - ((1 - t) * (a.y:ℚ) + t * (b.y:ℚ)) =
        (((b.x:ℚ) - (a.x:ℚ)) * ((q.y:ℚ) - (a.y:ℚ)) -
          ((b.y:ℚ) - (a.y:ℚ)) * ((q.x:ℚ) - (a.x:ℚ))) /
          ((b.x:ℚ) - (a.x:ℚ)) := by
      rw [ht]
      field_simp
      ring
    have hpos := div_nonneg key hD.le
    rw [← heq] at hpos
    linarith

/-- A point weakly left of a leftward edge, with abscissa between the
endpoints, lies weakly below a point of the segment with its abscissa. -/
theorem edge_above {S : Set (ℚ × ℚ)} (hS : Convex ℚ S) {c d q : Point}
    (hc : toQ c ∈ S) (hd : toQ d ∈ S) (hdc : d.x < c.x)
    (hdq : d.x ≤ q.x) (hqc : q.x ≤ c.x) (hsupp : 0 ≤ direction c d q) :
    ∃ w ∈ S, w.1 = (q.x : ℚ) ∧ (q.y : ℚ) ≤ w.2 := by
  have hD : (0:ℚ) < (c.x:ℚ) - (d.x:ℚ) := by
    have : (d.x:ℚ) < (c.x:ℚ) := by exact_mod_cast hdc
    linarith
  set t : ℚ := ((c.x:ℚ) - (q.x:ℚ)) / ((c.x:ℚ) - (d.x:ℚ)) with ht
  have ht0 : 0 ≤ t := by
    refine div_nonneg ?_ hD.le
    have : (q.x:ℚ) ≤ (c.x:ℚ) := by exact_mod_cast hqc
    linarith
  have ht1 : t ≤ 1 := by
    rw [ht, div_le_one hD]
    have : (d.x:ℚ) ≤ (q.x:ℚ) := by exact_mod_cast hdq
    linarith
  have key : 0 ≤ ((d.x:ℚ) - (c.x:ℚ)) * ((q.y:ℚ) - (c.y:ℚ)) -
      ((d.y:ℚ) - (c.y:ℚ)) * ((q.x:ℚ) - (c.x:ℚ)) := by
    have h0 := hsupp
    simp only [direction] at h0
    exact_mod_cast h0
  refine ⟨(1 - t) • toQ c + t • toQ d,
    hS hc hd (by linarith) ht0 (by ring), ?_, ?_⟩
  · simp only [toQ, Prod.fst_add, Prod.smul_fst, smul_eq_mul]
    rw [ht]
    field_simp
    ring
  · simp only [toQ, Prod.snd_add, Prod.smul_snd, smul_eq_mul]
    have heq : ((1 - t) * (c.y:ℚ) + t * (d.y:ℚ)) - (q.y:ℚ) =
        (((d.x:ℚ) - (c.x:ℚ)) * ((q.y:ℚ) - (c.y:ℚ)) -
          ((d.y:ℚ) - (c.y:ℚ)) * ((q.x:ℚ) - (c.x:ℚ))) /
          ((c.x:ℚ) - (d.x:ℚ)) := by
      rw [ht]
      field_simp
      ring
    have hpos := div_nonneg key hD.le
    rw [← heq] at hpos
    linarith

/-- Every input point lies in the rational convex hull of the output. -/
theorem hull_contains {points : List Point} {q : Point} (hq : q ∈ points) :
    toQ q ∈ convexHull ℚ (toQ '' {p : Point | p ∈ convex_hull points}) := by
  by_cases h2 : 2 ≤ points.dedup.length
  case neg =>
    have h1 : points.dedup.length ≤ 1 := by omega
    refine subset_convexHull ℚ _ ⟨q, ?_, rfl⟩
    rw [Set.mem_setOf_eq, convex_hull_eq_of_le_one h1, List.mem_dedup]
    exact hq
  case pos =>
    have hS : Convex ℚ (convexHull ℚ (toQ '' {p : Point | p ∈ convex_hull points})) :=
      convex_convexHull ℚ _
    have hmem : ∀ x, x ∈ convex_hull points →
        toQ x ∈ convexHull ℚ (toQ '' {p : Point | p ∈ convex_hull points}) :=
      fun x hx => subset_convexHull ℚ _ ⟨x, hx, rfl⟩
    have hqs : q ∈ hullSorted points := mem_hullSorted.mpr hq
    obtain ⟨A, B, hA, hB, hAB⟩ := hullSorted_extremes h2
    have hqB : lexLE q B :=
      sorted_getLast_max (hullSorted_sorted points) B hB q hqs
    have hAq : lexLE A q :=
      sorted_head_min (hullSorted_sorted points) A hA q hqs
    -- lower-chain bracket
    have hLhead : (lowR points).head? = some B := by rw [lowR_head? h2, hB]
    have hLcons : lowR points = B :: (lowR points).tail :=
      List.eq_cons_of_mem_head? hLhead
    have hLlen : 2 ≤ (lowR points).length := lowR_two_le h2
    have htailL : (lowR points).tail ≠ [] := by
      intro h0
      rw [hLcons, h0] at hLlen
      simp at hLlen
    have hlastL : ∀ z, (B :: (lowR points).tail).getLast? = some z →
        lexLE z q := by
      intro z hz
      rw [← hLcons, lowR_getLast? h2, hA, Option.some.injEq] at hz
      rw [← hz]
      exact hAq
    obtain ⟨preL, xL, yL, postL, hdecL, hyLq, hqxL⟩ :=
      bracket_exists (lowR points).tail B q hqB hlastL htailL
    rw [← hLcons] at hdecL
    have hsupL : 0 ≤ direction yL xL q :=
      supports_of_decomp ((lowR_inv h2).supp q hqs) hdecL
    have hordL : lexLt yL xL := rsorted_of_decomp (lowR_inv h2).sorted hdecL
    have hxLm : xL ∈ convex_hull points :=
      (mem_hull_iff h2).mpr (Or.inl (by rw [hdecL]; simp))
    have hyLm : yL ∈ convex_hull points :=
      (mem_hull_iff h2).mpr (Or.inl (by rw [hdecL]; simp))
    -- upper-chain bracket
    have hUhead : (upR points).reverse.head? = some B := by
      rw [List.head?_reverse, upR_getLast? h2, hB]
    have hUcons : (upR points).reverse = B :: (upR points).reverse.tail :=
      List.eq_cons_of_mem_head? hUhead
    have hUlen : 2 ≤ (upR points).reverse.length := by
      rw [List.length_reverse]
      exact upR_two_le h2
    have htailU : (upR points).reverse.tail ≠ [] := by
      intro h0
      rw [hUcons, h0] at hUlen
      simp at hUlen
    have hlastU : ∀ z, (B :: (upR points).reverse.tail).getLast? = some z →
        lexLE z q := by
      intro z hz
      rw [← hUcons, List.getLast?_reverse, upR_head? h2, hA,
        Option.some.injEq] at hz
      rw [← hz]
      exact hAq
    obtain ⟨preU, xU, yU, postU, hdecU, hyUq, hqxU⟩ :=
      bracket_exists (upR points).reverse.tail B q hqB hlastU htailU
    rw [← hUcons] at hdecU
    have hdecU2 : upR points = postU.reverse ++ yU :: xU :: preU.reverse := by
      rw [← List.reverse_reverse (upR points), hdecU]
      simp
    have hsupU : 0 ≤ direction xU yU q :=
      supports_of_decomp (upR_supports h2 q hqs) hdecU2
    have hordU : lexLt yU xU := asc_of_decomp (upR_sorted_asc h2) hdecU2
    have hxUm : xU ∈ convex_hull points :=
      (mem_hull_iff h2).mpr (Or.inr (by rw [hdecU2]; simp))
    have hyUm : yU ∈ convex_hull points :=
      (mem_hull_iff h2).mpr (Or.inr (by rw [hdecU2]; simp))
    -- abscissa bounds
    have hx1 : yL.x ≤ q.x := lexLE_x hyLq
    have hx2 : q.x ≤ xL.x := lexLE_x hqxL
    have hx3 : yU.x ≤ q.x := lexLE_x hyUq
    have hx4 : q.x ≤ xU.x := lexLE_x hqxU
    by_cases hvL : yL.x = xL.x
    · -- vertical lower edge: q is on it
      have hyy : yL.y < xL.y := by
        rcases hordL with h0 | ⟨h0, h0y⟩
        · omega
        · exact h0y
      have hzero : xL.x - yL.x = 0 := by omega
      have hkey : (xL.y - yL.y) * (q.x - yL.x) ≤ 0 := by
        have h0 := hsupL
        simp only [direction] at h0
        rw [hzero, zero_mul] at h0
        omega
      have hqx0 : q.x = yL.x :=
        le_antisymm (by
          have := nonpos_right_of_mul hkey (by omega)
          omega) hx1
      have hy1 : yL.y ≤ q.y := by
        rcases hyLq with h0 | ⟨h0, h0y⟩
        · omega
        · exact h0y
      have hy2 : q.y ≤ xL.y := by
        rcases hqxL with h0 | ⟨h0, h0y⟩
        · omega
        · exact h0y
      refine convex_vert hS (hmem yL hyLm) (hmem xL hxLm) ?_ ?_ ?_ ?_
      · show (yL.x : ℚ) = (q.x : ℚ)
        exact_mod_cast hqx0.symm
      · show (xL.x : ℚ) = (q.x : ℚ)
        have hxq : xL.x = q.x := by omega
        exact_mod_cast hxq
      · show (yL.y : ℚ) ≤ (q.y : ℚ)
        exact_mod_cast hy1
      · show (q.y : ℚ) ≤ (xL.y : ℚ)
        exact_mod_cast hy2
    · by_cases hvU : yU.x = xU.x
      · -- vertical upper edge: q is on it
        have hyy : yU.y < xU.y := by
          rcases hordU with h0 | ⟨h0, h0y⟩
          · omega
          · exact h0y
        have hzero : yU.x - xU.x = 0 := by omega
        have hkey : 0 ≤ (xU.y - yU.y) * (q.x - xU.x) := by
          have h0 := hsupU
          simp only [direction] at h0
          rw [hzero, zero_mul] at h0
          nlinarith
        have hqx0 : q.x = xU.x :=
          le_antisymm hx4 (by
            have := nonneg_right_of_mul hkey (by omega)
            omega)
        have hy1 : yU.y ≤ q.y := by
          rcases hyUq with h0 | ⟨h0, h0y⟩
          · omega
          · exact h0y
        have hy2 : q.y ≤ xU.y := by
          rcases hqxU with h0 | ⟨h0, h0y⟩
          · omega
          · exact h0y
        refine convex_vert hS (hmem yU hyUm) (hmem xU hxUm) ?_ ?_ ?_ ?_
        · show (yU.x : ℚ) = (q.x : ℚ)
          have hxq : yU.x = q.x := by omega
          exact_mod_cast hxq
        · show (xU.x : ℚ) = (q.x : ℚ)
          exact_mod_cast hqx0.symm
        · show (yU.y : ℚ) ≤ (q.y : ℚ)
          exact_mod_cast hy1
        · show (q.y : ℚ) ≤ (xU.y : ℚ)
          exact_mod_cast hy2
      · -- both bracket edges advance in x: interpolate vertically
        have hltL : yL.x < xL.x := by
          rcases hordL with h0 | ⟨h0, h0y⟩
          · exact h0
          · omega
        have hltU : yU.x < xU.x := by
          rcases hordU with h0 | ⟨h0, h0y⟩
          · exact h0
          · omega
        obtain ⟨wl, hwlS, hwl1, hwl2⟩ :=
          edge_below hS (hmem yL hyLm) (hmem xL hxLm) hltL hx1 hx2 hsupL
        obtain ⟨wu, hwuS, hwu1, hwu2⟩ :=
          edge_above hS (hmem xU hxUm) (hmem yU hyUm) hltU hx3 hx4 hsupU
        exact convex_vert hS hwlS hwuS hwl1 hwu1 hwl2 hwu2

/-! ### The sign of the turn test: zero means collinear -/

theorem direction_cast_eq_zero {a b c : Point} (h : direction a b c = 0) :
    ((b.x:ℚ) - (a.x:ℚ)) * ((c.y:ℚ) - (a.y:ℚ)) -
      ((b.y:ℚ) - (a.y:ℚ)) * ((c.x:ℚ) - (a.x:ℚ)) = 0 := by
  simp only [direction] at h
  exact_mod_cast h

theorem direction_eq_zero_iff_collinear (a b c : Point) :
    direction a b c = 0 ↔
      Collinear ℚ ({toQ a, toQ b, toQ c} : Set (ℚ × ℚ)) := by
  have hmem : toQ a ∈ ({toQ a, toQ b, toQ c} : Set (ℚ × ℚ)) := by simp
  rw [collinear_iff_of_mem hmem]
  constructor
  · intro h
    have hQ := direction_cast_eq_zero h
    by_cases hx : b.x = a.x
    · by_cases hy : b.y = a.y
      · -- b coincides with a
        refine ⟨toQ c - toQ a, ?_⟩
        intro p hp
        rcases hp with rfl | rfl | rfl
        · exact ⟨0, by simp⟩
        · refine ⟨0, ?_⟩
          have hba : toQ b = toQ a := by
            simp only [toQ, Prod.ext_iff]
            refine ⟨?_, ?_⟩
            · exact_mod_cast hx
            · exact_mod_cast hy
          simp [hba]
        · exact ⟨1, by simp⟩
      · -- vertical base vector
        have hca : c.x = a.x := by
          simp only [direction] at h
          have h0 : (b.x - a.x) = 0 := by omega
          rw [h0, zero_mul] at h
          rcases mul_eq_zero.mp
              (by linarith [h] : (b.y - a.y) * (c.x - a.x) = 0)
            with h1 | h1
          · omega
          · omega
        refine ⟨toQ b - toQ a, ?_⟩
        intro p hp
        rcases hp with rfl | rfl | rfl
        · exact ⟨0, by simp⟩
        · exact ⟨1, by simp⟩
        · refine ⟨((c.y:ℚ) - (a.y:ℚ)) / ((b.y:ℚ) - (a.y:ℚ)), ?_⟩
          have hyQ : (b.y:ℚ) - (a.y:ℚ) ≠ 0 := by
            intro h0
            exact hy (by exact_mod_cast sub_eq_zero.mp h0)
          simp only [toQ, vadd_eq_add, Prod.ext_iff, Prod.fst_add,
            Prod.snd_add, Prod.smul_fst, Prod.smul_snd, Prod.fst_sub,
            Prod.snd_sub, smul_eq_mul]
          constructor
          · have hxQ : (b.x:ℚ) = (a.x:ℚ) := by exact_mod_cast hx
            have hcaQ : (c.x:ℚ) = (a.x:ℚ) := by exact_mod_cast hca
            rw [hxQ, hcaQ]
            ring
          · field_simp
    · -- base vector advances in x
      have hxQ : (b.x:ℚ) - (a.x:ℚ) ≠ 0 := by
        intro h0
        exact hx (by exact_mod_cast sub_eq_zero.mp h0)
      refine ⟨toQ b - toQ a, ?_⟩
      intro p hp
      rcases hp with rfl | rfl | rfl
      · exact ⟨0, by simp⟩
      · exact ⟨1, by simp⟩
      · refine ⟨((c.x:ℚ) - (a.x:ℚ)) / ((b.x:ℚ) - (a.x:ℚ)), ?_⟩
        simp only [toQ, vadd_eq_add, Prod.ext_iff, Prod.fst_add,
          Prod.snd_add, Prod.smul_fst, Prod.smul_snd, Prod.fst_sub,
          Prod.snd_sub, smul_eq_mul]
        constructor
        · field_simp
        · field_simp
          linear_combination hQ
  · intro ⟨v, hv⟩
    obtain ⟨tb, hb⟩ := hv (toQ b) (by simp)
    obtain ⟨tc, hc⟩ := hv (toQ c) (by simp)
    simp only [toQ, vadd_eq_add, Prod.ext_iff, Prod.fst_add, Prod.snd_add,
      Prod.smul_fst, Prod.smul_snd, smul_eq_mul] at hb hc
    obtain ⟨hb1, hb2⟩ := hb
    obtain ⟨hc1, hc2⟩ := hc
    have hQ : ((b.x:ℚ) - (a.x:ℚ)) * ((c.y:ℚ) - (a.y:ℚ)) -
        ((b.y:ℚ) - (a.y:ℚ)) * ((c.x:ℚ) - (a.x:ℚ)) = 0 := by
      linear_combination ((c.y:ℚ) - (a.y:ℚ)) * hb1 -
        ((b.y:ℚ) - (a.y:ℚ)) * hc1 + tb * v.1 * hc2 - tc * v.1 * hb2
    have : ((direction a b c : Int) : ℚ) = 0 := by
      simp only [direction]
      push_cast
      linarith [hQ]
    exact_mod_cast this

/-! ### The source Point class: object identity versus coordinates

The source class defines only a constructor and a printer.  It therefore
inherits default object equality, which compares object identities, not
coordinates, and defines no order at all; the algorithm compares points
exclusively through the tuple key `(p.x, p.y)`. -/

/-- A `Point` object of the source as the runtime sees it: `objId` is the
object identity that default equality compares. -/
structure PyPoint where
  objId : Nat
  x : Int
  y : Int
  deriving DecidableEq, Repr

/-- The coordinate key `(p.x, p.y)` the source builds for deduplication
(`uniq = {(p.x, p.y) for p in points}`) and sorting
(`key=lambda p: (p.x, p.y)`). -/
def key (p : Point) : Int × Int :=
  (p.x, p.y)

theorem key_eq_iff (p q : Point) : key p = key q ↔ p.x = q.x ∧ p.y = q.y := by
  simp [key, Prod.ext_iff]

theorem lexLE_iff_toLex (p q : Point) :
    lexLE p q ↔ toLex (key p) ≤ toLex (key q) := by
  rw [Prod.Lex.le_iff]
  rfl

theorem lexLt_iff_toLex (p q : Point) :
    lexLt p q ↔ toLex (key p) < toLex (key q) := by
  rw [Prod.Lex.lt_iff]
  rfl

/-! ### Hull vertices are extreme points -/

/-- Every hull vertex has two cyclic neighbours: the turn at the vertex is
strictly left, and every working point is weakly left of both incident
edges. -/
theorem exists_hull_neighbors {points : List Point}
    (h2 : 2 ≤ points.dedup.length)
    (h3 : 3 ≤ (convex_hull points).length) {v : Point}
    (hv : v ∈ convex_hull points) :
    ∃ p n, 0 < direction p v n ∧
      (∀ w ∈ hullSorted points, 0 ≤ direction p v w) ∧
      (∀ w ∈ hullSorted points, 0 ≤ direction v n w) := by
  obtain ⟨A, B, hA, hB, hAB⟩ := hullSorted_extremes h2
  have hinv := lowR_inv h2
  have h5 : 5 ≤ (lowR points).length + (upR points).length := by
    have hL2 := lowR_two_le h2
    have hU2 := upR_two_le h2
    have hlen : (convex_hull points).length =
        (lowR points).length - 1 + ((upR points).length - 1) := by
      rw [convex_hull_eq' h2]
      simp
    omega
  by_cases hvA : v = A
  · -- corner at the lexicographic minimum
    subst hvA
    obtain ⟨x, t, restU, hUdec⟩ := exists_first_two (upR_two_le h2)
    have hxA : x = v := by
      have h0 : (upR points).head? = some x := by rw [hUdec]; rfl
      rw [upR_head? h2, hA, Option.some.injEq] at h0
      exact h0.symm
    rw [hxA] at hUdec
    obtain ⟨preL2, l₂, y, hLdec0⟩ := exists_last_two (lowR_two_le h2)
    have hyA : y = v := by
      have h0 : (lowR points).getLast? = some y := by
        rw [hLdec0, show preL2 ++ [l₂, y] = (preL2 ++ [l₂]) ++ [y] by simp,
          List.getLast?_concat]
      rw [lowR_getLast? h2, hA, Option.some.injEq] at h0
      exact h0.symm
    rw [hyA] at hLdec0
    have hstrict : 0 < direction t v l₂ :=
      corner_lemma_A (hullSorted points) (lowR points) (upR points) v B t l₂
        restU preL2 hUdec hLdec0 hinv.sorted hinv.convex hinv.supp
        (by rw [lowR_head? h2, hB]) hinv.mem (upR_sorted_asc h2)
        (upR_rconvex h2) (upR_supports h2) (by rw [upR_getLast? h2, hB])
        (upR_mem h2)
        (fun q hq => sorted_getLast_max (hullSorted_sorted points) B hB q hq)
        (fun z hzL hzU => sep_lower_upper h2 hA hB hzL hzU) h5
    refine ⟨t, l₂, hstrict, ?_, ?_⟩
    · intro w hw
      exact supports_of_decomp (upR_supports h2 w hw)
        (show upR points = [] ++ v :: t :: restU by rw [hUdec]; rfl)
    · intro w hw
      exact supports_of_decomp (hinv.supp w hw)
        (show lowR points = preL2 ++ l₂ :: v :: [] by rw [hLdec0])
  · by_cases hvB : v = B
    · -- corner at the lexicographic maximum
      subst hvB
      obtain ⟨x, w₂, restL, hLdec⟩ := exists_first_two (lowR_two_le h2)
      have hxB : x = v := by
        have h0 : (lowR points).head? = some x := by rw [hLdec]; rfl
        rw [lowR_head? h2, hB, Option.some.injEq] at h0
        exact h0.symm
      rw [hxB] at hLdec
      obtain ⟨preU2, u₂, y, hUdec0⟩ := exists_last_two (upR_two_le h2)
      have hyB : y = v := by
        have h0 : (upR points).getLast? = some y := by
          rw [hUdec0, show preU2 ++ [u₂, y] = (preU2 ++ [u₂]) ++ [y] by simp,
            List.getLast?_concat]
        rw [upR_getLast? h2, hB, Option.some.injEq] at h0
        exact h0.symm
      rw [hyB] at hUdec0
      have hstrict : 0 < direction w₂ v u₂ :=
        corner_lemma (hullSorted points) (lowR points) (upR points) A v w₂ u₂
          restL preU2 hLdec hUdec0 hinv.sorted hinv.convex hinv.supp
          (by rw [lowR_getLast? h2, hA]) hinv.mem (upR_sorted_asc h2)
          (upR_rconvex h2) (upR_supports h2) (by rw [upR_head? h2, hA])
          (upR_mem h2)
          (fun q hq => sorted_head_min (hullSorted_sorted points) A hA q hq)
          (fun z hzL hzU => sep_lower_upper h2 hA hB hzL hzU) h5
      refine ⟨w₂, u₂, hstrict, ?_, ?_⟩
      · intro w hw
        exact supports_of_decomp (hinv.supp w hw)
          (show lowR points = [] ++ v :: w₂ :: restL by rw [hLdec]; rfl)
      · intro w hw
        exact supports_of_decomp (upR_supports h2 w hw)
          (show upR points = preU2 ++ u₂ :: v :: [] by rw [hUdec0])
    · -- interior vertex of one of the two chains
      rcases (mem_hull_iff h2).mp hv with hmem | hmem
      · obtain ⟨pre, x, y, suf, hdec⟩ :=
          mem_interior_decomp (lowR points) v hmem
            (by
              rw [lowR_head? h2, hB]
              simp only [ne_eq, Option.some.injEq]
              exact fun h0 => hvB h0.symm)
            (by
              rw [lowR_getLast? h2, hA]
              simp only [ne_eq, Option.some.injEq]
              exact fun h0 => hvA h0.symm)
        have hstrict : 0 < direction y v x :=
          rconvex_of_decomp pre (lowR points) x v y suf hinv.convex hdec
        refine ⟨y, x, hstrict, ?_, ?_⟩
        · intro w hw
          exact supports_of_decomp (hinv.supp w hw)
            (show lowR points = (pre ++ [x]) ++ v :: y :: suf by
              rw [hdec]; simp)
        · intro w hw
          exact supports_of_decomp (hinv.supp w hw)
            (show lowR points = pre ++ x :: v :: (y :: suf) by rw [hdec])
      · obtain ⟨pre, x, y, suf, hdec⟩ :=
          mem_interior_decomp (upR points) v hmem
            (by
              rw [upR_head? h2, hA]
              simp only [ne_eq, Option.some.injEq]
              exact fun h0 => hvA h0.symm)
            (by
              rw [upR_getLast? h2, hB]
              simp only [ne_eq, Option.some.injEq]
              exact fun h0 => hvB h0.symm)
        have hstrict : 0 < direction y v x :=
          rconvex_of_decomp pre (upR points) x v y suf (upR_rconvex h2) hdec
        refine ⟨y, x, hstrict, ?_, ?_⟩
        · intro w hw
          exact supports_of_decomp (upR_supports h2 w hw)
            (show upR points = (pre ++ [x]) ++ v :: y :: suf by
              rw [hdec]; simp)
        · intro w hw
          exact supports_of_decomp (upR_supports h2 w hw)
            (show upR points = pre ++ x :: v :: (y :: suf) by rw [hdec])

/-- The turn test as an affine function of the third point over `ℚ`. -/
def dirQ (a b : Point) (z : ℚ × ℚ) : ℚ :=
  ((b.x:ℚ) - (a.x:ℚ)) * (z.2 - (a.y:ℚ)) - ((b.y:ℚ) - (a.y:ℚ)) * (z.1 - (a.x:ℚ))

theorem dirQ_toQ (a b c : Point) :
    dirQ a b (toQ c) = ((direction a b c : Int) : ℚ) := by
  simp only [dirQ, toQ, direction]
  push_cast
  ring

/-- Two distinct hull edge lines through a vertex meet only there. -/
theorem eq_of_two_zero_directions {p v n w : Point}
    (hpn : 0 < direction p v n) (e1 : direction p v w = 0)
    (e2 : direction v n w = 0) : w = v := by
  have h1 : cross (vsub p v) (vsub w v) = 0 := by
    rw [direction_cyclic] at e1
    rw [direction_eq_cross] at e1
    rw [cross_comm_neg]
    omega
  have h2 : cross (vsub n v) (vsub w v) = 0 := by
    rw [direction_eq_cross] at e2
    exact e2
  have h3 : cross (vsub p v) (vsub n v) ≠ 0 := by
    have hcyc : direction v p n = direction p n v := direction_cyclic v p n
    have hswap : direction p v n = - direction p n v := direction_swap p v n
    have : direction v p n = - direction p v n := by omega
    rw [direction_eq_cross] at this
    omega
  have hu := eq_zero_of_cross_cross h1 h2 h3
  have hc : w.x - v.x = 0 ∧ w.y - v.y = 0 := by
    have := Prod.ext_iff.mp hu
    exact this
  have hx : w.x = v.x := by omega
  have hy : w.y = v.y := by omega
  cases w
  cases v
  simp only [Point.mk.injEq]
  exact ⟨hx, hy⟩

/-- A hull vertex is not in the convex hull of the other output points. -/
theorem hull_vertex_extreme {points : List Point}
    (h2 : 2 ≤ points.dedup.length)
    (h3 : 3 ≤ (convex_hull points).length) {v : Point}
    (hv : v ∈ convex_hull points) :
    toQ v ∉ convexHull ℚ
      (toQ '' {w : Point | w ∈ convex_hull points ∧ w ≠ v}) := by
  obtain ⟨p, n, hpn, hsup1, hsup2⟩ := exists_hull_neighbors h2 h3 hv
  intro hmem
  have hconv : Convex ℚ {z : ℚ × ℚ | 0 < dirQ p v z + dirQ v n z} := by
    intro x hx y hy a b ha hb hab
    simp only [Set.mem_setOf_eq] at hx hy ⊢
    have hcomb : dirQ p v (a • x + b • y) + dirQ v n (a • x + b • y) =
        a * (dirQ p v x + dirQ v n x) + b * (dirQ p v y + dirQ v n y) := by
      simp only [dirQ, Prod.fst_add, Prod.snd_add, Prod.smul_fst,
        Prod.smul_snd, smul_eq_mul]
      have h1 : b = 1 - a := by linarith
      rw [h1]
      ring
    rw [hcomb]
    rcases eq_or_lt_of_le ha with he | hlt
    · have hb1 : b = 1 := by linarith
      rw [← he, hb1]
      simpa using hy
    · have hp1 : 0 < a * (dirQ p v x + dirQ v n x) := mul_pos hlt hx
      have hp2 : 0 ≤ b * (dirQ p v y + dirQ v n y) :=
        mul_nonneg hb hy.le
      linarith
  have hsub : toQ '' {w : Point | w ∈ convex_hull points ∧ w ≠ v} ⊆
      {z : ℚ × ℚ | 0 < dirQ p v z + dirQ v n z} := by
    rintro z ⟨w, ⟨hwh, hwv⟩, rfl⟩
    have hws : w ∈ hullSorted points :=
      mem_hullSorted.mpr (hull_subset w hwh)
    have hw1 := hsup1 w hws
    have hw2 := hsup2 w hws
    have hint : 0 < direction p v w + direction v n w := by
      by_cases e1 : direction p v w = 0
      · have e2 : direction v n w ≠ 0 := by
          intro e2
          exact hwv (eq_of_two_zero_directions hpn e1 e2)
        omega
      · omega
    simp only [Set.mem_setOf_eq, dirQ_toQ]
    exact_mod_cast hint
  have hend := convexHull_min hsub hconv hmem
  simp only [Set.mem_setOf_eq, dirQ_toQ, direction_self_right,
    direction_self_mid] at hend
  simp at hend

/-! ### Idempotence up to the set of points -/

theorem pair_collinear (A B : Point) :
    ∀ p ∈ [A, B], ∀ q ∈ [A, B], ∀ r ∈ [A, B], direction p q r = 0 := by
  intro p hp q hq r hr
  simp only [List.mem_cons, List.mem_singleton, List.not_mem_nil,
    or_false] at hp hq hr
  rcases hp with rfl | rfl <;> rcases hq with rfl | rfl <;>
    rcases hr with rfl | rfl <;>
    simp [direction_self_left, direction_self_mid, direction_self_right]

theorem convex_hull_pair_mem {A B : Point} (hne : A ≠ B) :
    ∀ x, x ∈ convex_hull [A, B] ↔ x ∈ [A, B] := by
  have hd : ([A, B] : List Point).dedup = [A, B] :=
    List.dedup_eq_self.mpr (by simp [hne])
  have h2 : 2 ≤ ([A, B] : List Point).dedup.length := by simp [hd]
  obtain ⟨A0, B0, hA0, hB0, hlt⟩ := hullSorted_extremes h2
  obtain ⟨A1, B1, heq, hA1, hB1⟩ :=
    convex_hull_collinear h2 (pair_collinear A B)
  rw [hA0, Option.some.injEq] at hA1
  rw [hB0, Option.some.injEq] at hB1
  rw [← hA1, ← hB1] at heq
  have hne0 : A0 ≠ B0 := by
    intro h0
    rw [h0] at hlt
    exact lexLt_irrefl B0 hlt
  have hmA : A0 ∈ [A, B] :=
    mem_hullSorted.mp (List.mem_of_mem_head? (by rw [hA0]; rfl))
  have hmB : B0 ∈ [A, B] :=
    mem_hullSorted.mp (List.mem_of_mem_getLast? (by rw [hB0]; rfl))
  intro x
  rw [heq]
  simp only [List.mem_cons, List.mem_singleton, List.not_mem_nil,
    or_false] at hmA hmB ⊢
  rcases hmA with rfl | rfl <;> rcases hmB with rfl | rfl <;> tauto

/-- Running the hull builder on its own output keeps exactly the same
points. -/
theorem hull_idem_mem {points : List Point} :
    ∀ x, x ∈ convex_hull (convex_hull points) ↔ x ∈ convex_hull points := by
  intro x
  constructor
  · exact fun hx => hull_subset x hx
  · intro hx
    by_cases h2 : 2 ≤ points.dedup.length
    case neg =>
      have hle : points.dedup.length ≤ 1 := by omega
      have hle2 : (points.dedup).dedup.length ≤ 1 := by
        rw [List.dedup_eq_self.mpr (List.nodup_dedup points)]
        exact hle
      rw [convex_hull_eq_of_le_one hle] at hx ⊢
      rw [convex_hull_eq_of_le_one hle2,
        List.dedup_eq_self.mpr (List.nodup_dedup points)]
      exact hx
    case pos =>
      have hnods : (convex_hull points).Nodup := hull_nodup
      have hlen2 : 2 ≤ (convex_hull points).length := by
        rw [convex_hull_eq' h2]
        have hL := lowR_two_le h2
        have hU := upR_two_le h2
        simp only [List.length_append, List.length_dropLast,
          List.length_reverse]
        omega
      rcases Nat.lt_or_ge (convex_hull points).length 3 with hlt | hge
      · -- exactly two hull points
        obtain ⟨a, b, rest, hab⟩ := exists_first_two hlen2
        have hrest : rest = [] := by
          have h0 : (convex_hull points).length = 2 := by omega
          rw [hab] at h0
          simp only [List.length_cons] at h0
          exact List.length_eq_zero.mp (by omega)
        rw [hrest] at hab
        have hne : a ≠ b := by
          rw [hab] at hnods
          simp only [List.nodup_cons, List.mem_singleton] at hnods
          exact hnods.1
        rw [hab] at hx ⊢
        exact (convex_hull_pair_mem hne x).mpr hx
      · -- three or more: a hull vertex is extreme
        by_contra hnot
        have hcont := hull_contains hx
        have hsub2 : {p : Point | p ∈ convex_hull (convex_hull points)} ⊆
            {w : Point | w ∈ convex_hull points ∧ w ≠ x} := by
          intro z hz
          exact ⟨hull_subset z hz, fun hzx => hnot (hzx ▸ hz)⟩
        have hmono : convexHull ℚ
              (toQ '' {p : Point | p ∈ convex_hull (convex_hull points)}) ⊆
            convexHull ℚ
              (toQ '' {w : Point | w ∈ convex_hull points ∧ w ≠ x}) :=
          convexHull_mono (Set.image_subset toQ hsub2)
        exact hull_vertex_extreme h2 hge hx (hmono hcont)

/-! ### Remaining small helpers -/

theorem convex3_of_decomp :
    ∀ (pre l : List Point) (x y z : Point) (post : List Point),
      Convex3 l → l = pre ++ x :: y :: z :: post → 0 < direction x y z := by
  intro pre
  induction pre with
  | nil =>
    intro l x y z post hc hdec
    rw [List.nil_append] at hdec
    subst hdec
    exact hc.1
  | cons p pre2 ih =>
    intro l x y z post hc hdec
    subst hdec
    exact ih _ x y z post (convex3_tail hc) rfl

theorem point_eq_of_coords {p q : Point} (h : p.x = q.x ∧ p.y = q.y) :
    p = q := by
  cases p
  cases q
  simp only [Point.mk.injEq]
  exact h

/-! ## The claims -/

/-- C1: for every input whose returned hull has at least 3 points, every
cyclically consecutive triple `(x, y, z)` of the returned sequence (the
sequence extended by its first two points, so the wrap-around triples are
included) satisfies `0 < direction x y z`, a strict left turn; in
particular no three cyclically consecutive output points are collinear. -/
theorem c1 {points : List Point} (h3 : 3 ≤ (convex_hull points).length) :
    ∀ (pre : List Point) (x y z : Point) (post : List Point),
      convex_hull points ++ (convex_hull points).take 2 =
        pre ++ x :: y :: z :: post →
      0 < direction x y z := by
  have h2 : 2 ≤ points.dedup.length := by
    by_contra h0
    push_neg at h0
    have := convex_hull_eq_of_le_one (by omega : points.dedup.length ≤ 1)
    rw [this] at h3
    omega
  intro pre x y z post hdec
  exact convex3_of_decomp pre _ x y z post (hull_cyclic h2 h3) hdec

theorem c1_witness :
    3 ≤ (convex_hull [Point.mk 0 0, Point.mk 2 0, Point.mk 2 2,
      Point.mk 0 2, Point.mk 1 1]).length ∧
    ∀ (pre : List Point) (x y z : Point) (post : List Point),
      convex_hull [Point.mk 0 0, Point.mk 2 0, Point.mk 2 2,
          Point.mk 0 2, Point.mk 1 1] ++
        (convex_hull [Point.mk 0 0, Point.mk 2 0, Point.mk 2 2,
          Point.mk 0 2, Point.mk 1 1]).take 2 =
        pre ++ x :: y :: z :: post →
      0 < direction x y z :=
  ⟨by decide, c1 (by decide)⟩

/-- C2: every input point lies on or inside the polygon formed by the
returned hull: its rational image belongs to the convex hull of the
returned vertices. -/
theorem c2 (points : List Point) (q : Point) (hq : q ∈ points) :
    toQ q ∈ convexHull ℚ (toQ '' {p : Point | p ∈ convex_hull points}) :=
  hull_contains hq

theorem c2_witness :
    Point.mk 1 1 ∈ [Point.mk 0 0, Point.mk 2 0, Point.mk 2 2,
      Point.mk 0 2, Point.mk 1 1] ∧
    toQ (Point.mk 1 1) ∈ convexHull ℚ
      (toQ '' {p : Point | p ∈ convex_hull [Point.mk 0 0, Point.mk 2 0,
        Point.mk 2 2, Point.mk 0 2, Point.mk 1 1]}) :=
  ⟨by decide, c2 _ _ (by decide)⟩

/-- C3: the returned sequence never contains two points with the same
`(x, y)` coordinates, and every output point's coordinates occur among
the input points. -/
theorem c3 (points : List Point) :
    List.Pairwise (fun p q => ¬(p.x = q.x ∧ p.y = q.y))
      (convex_hull points) ∧
    ∀ p ∈ convex_hull points, ∃ q ∈ points, p.x = q.x ∧ p.y = q.y := by
  constructor
  · exact List.Pairwise.imp (fun hne hxy => hne (point_eq_of_coords hxy))
      hull_nodup
  · intro p hp
    exact ⟨p, hull_subset p hp, rfl, rfl⟩

/-- C4: the turn test is exactly the stated cross product formula, is a
pure function of its arguments (a Lean function), and its sign classifies
the turn: it is antisymmetric under exchanging the two rays (left versus
right turn), invariant under cyclic rotation of the arguments, and zero
exactly when the three points are collinear. -/
theorem c4 (a b c : Point) :
    direction a b c =
      (b.x - a.x) * (c.y - a.y) - (b.y - a.y) * (c.x - a.x) ∧
    direction a b c = - direction a c b ∧
    direction a b c = direction b c a ∧
    (direction a b c = 0 ↔
      Collinear ℚ ({toQ a, toQ b, toQ c} : Set (ℚ × ℚ))) :=
  ⟨rfl, direction_swap a b c, direction_cyclic a b c,
    direction_eq_zero_iff_collinear a b c⟩

/-- C5: when the distinct input points number at least two and all input
triples are collinear (all points on one line), the hull is exactly the
two lexicographic extremes of the input, every other point lying between
them. -/
theorem c5 (points : List Point) (h2 : 2 ≤ points.dedup.length)
    (hcol : ∀ p ∈ points, ∀ q ∈ points, ∀ r ∈ points,
      direction p q r = 0) :
    ∃ A B, convex_hull points = [A, B] ∧ A ∈ points ∧ B ∈ points ∧
      lexLt A B ∧ ∀ q ∈ points, lexLE A q ∧ lexLE q B := by
  obtain ⟨A, B, heq, hA, hB⟩ := convex_hull_collinear h2 hcol
  obtain ⟨A0, B0, hA0, hB0, hlt⟩ := hullSorted_extremes h2
  rw [hA0, Option.some.injEq] at hA
  rw [hB0, Option.some.injEq] at hB
  subst hA
  subst hB
  refine ⟨A0, B0, heq, ?_, ?_, hlt, ?_⟩
  · exact mem_hullSorted.mp (List.mem_of_mem_head? (by rw [hA0]; rfl))
  · exact mem_hullSorted.mp (List.mem_of_mem_getLast? (by rw [hB0]; rfl))
  · intro q hq
    have hqs : q ∈ hullSorted points := mem_hullSorted.mpr hq
    exact ⟨sorted_head_min (hullSorted_sorted points) A0 hA0 q hqs,
      sorted_getLast_max (hullSorted_sorted points) B0 hB0 q hqs⟩

theorem c5_witness :
    2 ≤ ([Point.mk 0 0, Point.mk 1 0, Point.mk 2 0] : List Point).dedup.length ∧
    (∀ p ∈ [Point.mk 0 0, Point.mk 1 0, Point.mk 2 0],
      ∀ q ∈ [Point.mk 0 0, Point.mk 1 0, Point.mk 2 0],
      ∀ r ∈ [Point.mk 0 0, Point.mk 1 0, Point.mk 2 0],
        direction p q r = 0) ∧
    ∃ A B, convex_hull [Point.mk 0 0, Point.mk 1 0, Point.mk 2 0] = [A, B] ∧
      A ∈ [Point.mk 0 0, Point.mk 1 0, Point.mk 2 0] ∧
      B ∈ [Point.mk 0 0, Point.mk 1 0, Point.mk 2 0] ∧
      lexLt A B ∧
      ∀ q ∈ [Point.mk 0 0, Point.mk 1 0, Point.mk 2 0],
        lexLE A q ∧ lexLE q B :=
  ⟨by decide, by decide, c5 _ (by decide) (by decide)⟩

/-- C6: for every input with at least two distinct points, the first
returned point is the lexicographically smallest input point, and when
the hull has at least three vertices the sequence is a counter-clockwise
traversal (strict left turn at every cyclic triple) from it. -/
theorem c6 {points : List Point} (h2 : 2 ≤ points.dedup.length) :
    (∃ A, (convex_hull points).head? = some A ∧ A ∈ points ∧
      ∀ q ∈ points, lexLE A q) ∧
    (3 ≤ (convex_hull points).length → CyclicConvex (convex_hull points)) :=
  ⟨hull_head h2, fun h3 => hull_cyclic h2 h3⟩

theorem c6_witness :
    2 ≤ ([Point.mk 0 0, Point.mk 2 0, Point.mk 2 2, Point.mk 0 2,
      Point.mk 1 1] : List Point).dedup.length ∧
    ((∃ A, (convex_hull [Point.mk 0 0, Point.mk 2 0, Point.mk 2 2,
        Point.mk 0 2, Point.mk 1 1]).head? = some A ∧
      A ∈ [Point.mk 0 0, Point.mk 2 0, Point.mk 2 2, Point.mk 0 2,
        Point.mk 1 1] ∧
      ∀ q ∈ [Point.mk 0 0, Point.mk 2 0, Point.mk 2 2, Point.mk 0 2,
        Point.mk 1 1], lexLE A q) ∧
    (3 ≤ (convex_hull [Point.mk 0 0, Point.mk 2 0, Point.mk 2 2,
        Point.mk 0 2, Point.mk 1 1]).length →
      CyclicConvex (convex_hull [Point.mk 0 0, Point.mk 2 0, Point.mk 2 2,
        Point.mk 0 2, Point.mk 1 1]))) :=
  ⟨by decide, c6 (by decide)⟩

/-- C7: when the deduplicated input has at most one point the hull is the
deduplicated input unchanged; the empty input gives the empty output and
a single (possibly repeated) point gives just that point. -/
theorem c7 (points : List Point) (h : points.dedup.length ≤ 1) :
    convex_hull points = points.dedup ∧
    convex_hull ([] : List Point) = [] ∧
    ∀ p : Point, convex_hull [p] = [p] := by
  refine ⟨convex_hull_eq_of_le_one h, by decide, ?_⟩
  intro p
  rw [convex_hull_eq_of_le_one (by simp),
    List.dedup_eq_self.mpr (List.nodup_singleton p)]

theorem c7_witness :
    ([Point.mk 5 5, Point.mk 5 5] : List Point).dedup.length ≤ 1 ∧
    convex_hull [Point.mk 5 5, Point.mk 5 5] =
      ([Point.mk 5 5, Point.mk 5 5] : List Point).dedup :=
  ⟨by decide, (c7 _ (by decide)).1⟩

/-- C8: the hull builder is idempotent up to the set of points: applying
it to its own output keeps exactly the same points. -/
theorem c8 (points : List Point) :
    ∀ x, x ∈ convex_hull (convex_hull points) ↔ x ∈ convex_hull points :=
  hull_idem_mem

/-- C9 (corrected): the source Point class defines no equality or
ordering of its own, so the claim as stated fails for Point objects (see
the counterexample); the comparisons the program actually performs go
through the coordinate key `(p.x, p.y)`: key equality is exact
coordinate-wise equality, and the sort order on points is the
lexicographic order of their keys. -/
theorem c9 (p q : Point) :
    (key p = key q ↔ p.x = q.x ∧ p.y = q.y) ∧
    (lexLE p q ↔ toLex (key p) ≤ toLex (key q)) ∧
    (lexLt p q ↔ toLex (key p) < toLex (key q)) :=
  ⟨key_eq_iff p q, lexLE_iff_toLex p q, lexLt_iff_toLex p q⟩

/-- C9, counterexample: with default object equality (the Point class of
the source defines no `__eq__`), two Point objects with identical
coordinates need not be equal, refuting "p equals q iff p.x = q.x and
p.y = q.y". -/
theorem c9_cex :
    ¬ (∀ p q : PyPoint, p = q ↔ p.x = q.x ∧ p.y = q.y) := by
  intro h
  have h0 := (h (PyPoint.mk 0 1 2) (PyPoint.mk 1 1 2)).mpr ⟨rfl, rfl⟩
  simp at h0

/-- C10: the hull builder is invariant under reordering and repetition of
its input: two inputs with the same points give identical outputs. -/
theorem c10 {points1 points2 : List Point}
    (hm : ∀ p, p ∈ points1 ↔ p ∈ points2) :
    convex_hull points1 = convex_hull points2 :=
  convex_hull_ext hm

theorem c10_witness :
    convex_hull [Point.mk 0 0, Point.mk 1 1, Point.mk 0 0] =
      convex_hull [Point.mk 1 1, Point.mk 0 0] :=
  c10 (by
    intro p
    simp only [List.mem_cons, List.not_mem_nil, or_false]
    tauto)

end ConvexHull
